import Mathlib

/-!
Verification of the gomoku move-selection engine (`gomoku.py`, class `Minimax`).

The board is a square grid of cells valued 0 (empty), 1 (the engine's own
role, `ai_role`), or 2 (`opponent_role`).  We model it as a total function
`Fin n → Fin n → Fin 3`; every read the Python code performs is guarded by an
explicit bounds check, which we reproduce literally, so the out-of-bounds
default of `bcell` is never observable.

Python floats appear in two places: the score `ai_score * 1.2 -
opponent_score` and the `±math.inf` search window.  Scores are modelled
exactly as rationals (1.2 is the exact rational 6/5 here; the line scores are
small integers, and only comparisons of scores matter to the search), and the
infinities as the two extra points of the type `XQ` below.

The in-place board mutation and the mutable transposition dictionary are
modelled by explicit state passing: `minimax` returns the board and table it
leaves behind, together with ghost counters of how many times the evaluator,
the win detector, and the recursive search were invoked.
-/

namespace Gomoku

/-- Scores with `-math.inf` and `math.inf` adjoined, as used for alpha/beta. -/
inductive XQ where
  | negInf : XQ
  | q : ℚ → XQ
  | posInf : XQ
deriving DecidableEq

/-- Strict comparison on scores, mirroring Python float `<` on these values. -/
def XQ.blt : XQ → XQ → Bool
  | negInf, negInf => false
  | negInf, _ => true
  | q _, negInf => false
  | q a, q b => decide (a < b)
  | q _, posInf => true
  | posInf, _ => false

/-- Non-strict comparison, mirroring Python float `<=` on these values. -/
def XQ.ble (a b : XQ) : Bool := !(XQ.blt b a)

/-- A board state: each cell holds 0 (empty), 1 (ai) or 2 (opponent). -/
abbrev Board (n : ℕ) := Fin n → Fin n → Fin 3

/-- A move is a (row, column) coordinate pair. -/
abbrev Move (n : ℕ) := Fin n × Fin n

/-- Reading `self.board[x][y]` at integer coordinates.  The Python code only
ever reads after a bounds check, so the default value 3 (not a cell state) is
never observable. -/
def bcell {n : ℕ} (b : Board n) (x y : ℤ) : ℕ :=
  if hx : 0 ≤ x ∧ x < (n : ℤ) then
    if hy : 0 ≤ y ∧ y < (n : ℤ) then
      (b ⟨x.toNat, by omega⟩ ⟨y.toNat, by omega⟩).val
    else 3
  else 3

/-- Writing `self.board[x][y] = v` at an in-range cell. -/
def setCell {n : ℕ} (b : Board n) (m : Move n) (v : Fin 3) : Board n :=
  fun i j => if i = m.1 ∧ j = m.2 then v else b i j

/-- All cells in row-major order (`for x in range(size): for y in range(size)`). -/
def allCellsRM (n : ℕ) : List (Move n) :=
  (List.finRange n).flatMap fun x => (List.finRange n).map fun y => (x, y)

/-- Method `zobrist_hash`: fold over all cells in row-major order, xoring the
Zobrist table entry of every occupied cell into the accumulator. -/
def zhash {n : ℕ} (zt : Fin n → Fin n → Fin 3 → ℕ) (b : Board n) : ℕ :=
  (List.finRange n).foldl
    (fun acc x =>
      (List.finRange n).foldl
        (fun acc2 y => if b x y ≠ 0 then acc2 ^^^ zt x y (b x y) else acc2) acc)
    0

/-- The four scan directions of the source: horizontal, vertical, the two
diagonals. -/
def dirs : List (ℤ × ℤ) := [(1, 0), (0, 1), (1, 1), (1, -1)]

/-- The loop body of `check_direction`: walk up to `k` more steps from (x, y)
in direction (dx, dy), where `count` cells matched so far; report whether the
running count reaches 5. -/
def cdGo {n : ℕ} (b : Board n) (role : ℕ) (dx dy : ℤ) : ℕ → ℤ → ℤ → ℕ → Bool
  | 0, _, _, _ => false
  | k + 1, x, y, count =>
    if 0 ≤ x ∧ x < (n : ℤ) ∧ 0 ≤ y ∧ y < (n : ℤ) ∧ bcell b x y = role then
      (if count + 1 = 5 then true else cdGo b role dx dy k (x + dx) (y + dy) (count + 1))
    else false

/-- Method `check_direction`: five-in-a-row test starting at (x, y). -/
def check_direction {n : ℕ} (b : Board n) (x y : ℤ) (role : ℕ) (dx dy : ℤ) : Bool :=
  cdGo b role dx dy 5 x y 0

/-- Method `is_winning_move`: scan every cell owned by `role` and test the
four directions for five in a row. -/
def is_winning_move {n : ℕ} (b : Board n) (role : ℕ) : Bool :=
  (List.finRange n).any fun x =>
    (List.finRange n).any fun y =>
      (b x y).val == role && dirs.any fun d => check_direction b x y role d.1 d.2

/-- The loop body of `count_in_line`: like `cdGo` but returns the count (capped
at 5 steps) instead of short-circuiting at 5. -/
def cilGo {n : ℕ} (b : Board n) (role : ℕ) (dx dy : ℤ) : ℕ → ℤ → ℤ → ℕ → ℕ
  | 0, _, _, c => c
  | k + 1, x, y, c =>
    if 0 ≤ x ∧ x < (n : ℤ) ∧ 0 ≤ y ∧ y < (n : ℤ) ∧ bcell b x y = role then
      cilGo b role dx dy k (x + dx) (y + dy) (c + 1)
    else c

/-- Method `count_in_line`: length (up to 5) of the run of `role` cells
starting at (x, y) in direction (dx, dy). -/
def count_in_line {n : ℕ} (b : Board n) (x y dx dy : ℤ) (role : ℕ) : ℕ :=
  cilGo b role dx dy 5 x y 0

/-- Point value of a run length in `evaluate_lines` (length 5 is handled by the
early return, not here). -/
def dirPts (len : ℕ) : ℕ :=
  if len = 4 then 100 else if len = 3 then 10 else if len = 2 then 1 else 0

/-- The inner direction loop of `evaluate_lines` at one cell: `none` signals
that a run of length 5 was found (the method then returns 10000 at once),
otherwise the accumulated score.  The `cached_scores` dictionary of the source
is omitted: each key (x, y, dx, dy) is visited at most once per call, so the
memo can never hit. -/
def dirLoop {n : ℕ} (b : Board n) (role : ℕ) (x y : ℤ) : List (ℤ × ℤ) → ℕ → Option ℕ
  | [], s => some s
  | d :: ds, s =>
    let len := count_in_line b x y d.1 d.2 role
    if len = 5 then none else dirLoop b role x y ds (s + dirPts len)

/-- The cell loop of `evaluate_lines` over the remaining cells in row-major
order. -/
def elGo {n : ℕ} (b : Board n) (role : ℕ) : List (Move n) → ℕ → ℕ
  | [], s => s
  | c :: cs, s =>
    if (b c.1 c.2).val = role then
      match dirLoop b role (c.1 : ℤ) (c.2 : ℤ) dirs s with
      | none => 10000
      | some s2 => elGo b role cs s2
    else elGo b role cs s

/-- Method `evaluate_lines`. -/
def evaluate_lines {n : ℕ} (b : Board n) (role : ℕ) : ℕ :=
  elGo b role (allCellsRM n) 0

/-- Method `evaluate_board`: `ai_score * 1.2 - opponent_score` with
`ai_role = 1`, `opponent_role = 2` (the literal 1.2 is the exact rational
6/5 here; see the file comment). -/
def evaluate_board {n : ℕ} (b : Board n) : ℚ :=
  (evaluate_lines b 1 : ℚ) * 1.2 - (evaluate_lines b 2 : ℚ)

/-- The `taken_moves` list of `available_moves`: occupied cells in row-major
order. -/
def taken_moves {n : ℕ} (b : Board n) : List (Move n) :=
  (allCellsRM n).filter fun c => b c.1 c.2 != 0

/-- The offsets `(dx, dy)` for `dx in range(-2, 3)` outer, `dy in range(-2, 3)`
inner. -/
def neighOffsets : List (ℤ × ℤ) :=
  ((List.range 5).map fun i : ℕ => (i : ℤ) - 2).flatMap fun dx =>
    ((List.range 5).map fun i : ℕ => (i : ℤ) - 2).map fun dy => (dx, dy)

/-- The insert condition of the inner loop of `available_moves`: the
neighbour cell `c + d` is in range and empty. -/
def availCond {n : ℕ} (b : Board n) (c : Move n) (d : ℤ × ℤ) : Prop :=
  (0 ≤ (c.1 : ℤ) + d.1 ∧ (c.1 : ℤ) + d.1 < (n : ℤ)) ∧
  (0 ≤ (c.2 : ℤ) + d.2 ∧ (c.2 : ℤ) + d.2 < (n : ℤ)) ∧
  bcell b ((c.1 : ℤ) + d.1) ((c.2 : ℤ) + d.2) = 0

instance {n : ℕ} (b : Board n) (c : Move n) (d : ℤ × ℤ) : Decidable (availCond b c d) := by
  unfold availCond
  infer_instance

/-- One iteration of the outer loop of `available_moves`: insert every
in-range empty cell of the 5x5 neighbourhood of the occupied cell `c`. -/
def availInsert {n : ℕ} (b : Board n) (s : Finset (Move n)) (c : Move n) : Finset (Move n) :=
  neighOffsets.foldl
    (fun s2 d =>
      if h : availCond b c d then
        insert ((⟨((c.1 : ℤ) + d.1).toNat, by have := h.1; omega⟩ : Fin n),
                (⟨((c.2 : ℤ) + d.2).toNat, by have := h.2.1; omega⟩ : Fin n)) s2
      else s2)
    s

/-- Method `available_moves`, as the set it builds.  The source returns
`list(available_moves)` over a Python `set`, whose iteration order is not
specified; enumerations of this set are treated through `EnumSpec` below. -/
def available_moves {n : ℕ} (b : Board n) : Finset (Move n) :=
  (taken_moves b).foldl (availInsert b) ∅

/-- An admissible enumeration of the candidate set: any duplicate-free listing
of `available_moves` as a function of the board.  This captures exactly what
`list(<set>)` guarantees. -/
def EnumSpec {n : ℕ} (enum : Board n → List (Move n)) : Prop :=
  ∀ b : Board n, (enum b).Nodup ∧ ∀ m : Move n, m ∈ enum b ↔ m ∈ available_moves b

/-- The row-major (ascending row, then column) enumeration of the candidate
set: one concrete admissible enumeration. -/
def rmEnum {n : ℕ} (b : Board n) : List (Move n) :=
  (allCellsRM n).filter fun c => decide (c ∈ available_moves b)

/-- The reverse of the row-major enumeration: another admissible enumeration. -/
def rmEnumRev {n : ℕ} (b : Board n) : List (Move n) :=
  (rmEnum b).reverse

/-- A transposition-table entry `{"score": ..., "depth": ...}`. -/
structure TEntry where
  score : ℚ
  depth : ℕ
deriving DecidableEq

/-- The transposition dictionary, keyed by the Zobrist hash.  New bindings are
consed on the left and shadow older ones, which models overwriting. -/
abbrev Table := List (ℕ × TEntry)

/-- Dictionary lookup: the most recent binding of a key. -/
def tlookup (h : ℕ) : Table → Option TEntry
  | [] => none
  | (k, e) :: t => if k = h then some e else tlookup h t

/-- The result of one `minimax` call: the returned score and move, the board
and table state it leaves behind, and ghost counters of evaluator calls,
win-detector calls, and recursive `minimax` calls made during the call. -/
structure SR (n : ℕ) where
  score : XQ
  move : Option (Move n)
  board : Board n
  table : Table
  evalCalls : ℕ
  winCalls : ℕ
  recCalls : ℕ

section Search

variable {n : ℕ} (zt : Fin n → Fin n → Fin 3 → ℕ) (enum : Board n → List (Move n))

/-- Placeholder recursive-search function used at depth 0, where the terminal
test `depth == 0` fires before any recursive call, so it is provably never
invoked. -/
def noSearch : Board n → XQ → XQ → Bool → Table → SR n :=
  fun b α β mx t => ⟨if mx then α else β, none, b, t, 0, 0, 0⟩

/-- The candidate loop of `minimax`: place the mover's stone, recurse via
`next` (the depth-1 search), undo the move, update alpha (maximizing) or beta
(minimizing) and the best move on strict improvement, and break as soon as
`beta <= alpha`. -/
def abLoop (next : Board n → XQ → XQ → Bool → Table → SR n) (mx : Bool) :
    List (Move n) → XQ → XQ → Option (Move n) → Board n → Table → ℕ → ℕ → ℕ → SR n
  | [], α, β, best, b, t, ce, cw, cr => ⟨if mx then α else β, best, b, t, ce, cw, cr⟩
  | m :: ms, α, β, best, b, t, ce, cw, cr =>
    let r := next (setCell b m (if mx then 1 else 2)) α β (!mx) t
    let b2 := setCell r.board m 0
    let upd := if mx then XQ.blt α r.score else XQ.blt r.score β
    let α2 := if mx && upd then r.score else α
    let β2 := if !mx && upd then r.score else β
    let best2 := if upd then some m else best
    let ce2 := ce + r.evalCalls
    let cw2 := cw + r.winCalls
    let cr2 := cr + 1 + r.recCalls
    if XQ.ble β2 α2 then ⟨if mx then α2 else β2, best2, b2, r.table, ce2, cw2, cr2⟩
    else abLoop next mx ms α2 β2 best2 b2 r.table ce2 cw2 cr2

/-- The part of `minimax` after the transposition lookup: terminal test and
static evaluation (storing the score under the precomputed hash `h`), or the
candidate loop.  Reaching the loop implies `d ≠ 0`, so the win detector was
consulted exactly twice, whence the win-counter seed 2. -/
def mmBody (next : Board n → XQ → XQ → Bool → Table → SR n) (d : ℕ) (b : Board n)
    (α β : XQ) (mx : Bool) (t : Table) (h : ℕ) : SR n :=
  if d = 0 ∨ is_winning_move b 1 = true ∨ is_winning_move b 2 = true then
    ⟨XQ.q (evaluate_board b), none, b, (h, ⟨evaluate_board b, d⟩) :: t, 1,
      (if d = 0 then 0 else if is_winning_move b 1 then 1 else 2), 0⟩
  else
    abLoop next mx (enum b) α β none b t 0 2 0

/-- One `minimax` call at depth `d`, with `next` the search at depth `d - 1`:
hash the board, return a sufficiently deep cached score at once, else run the
body. -/
def mmNode (next : Board n → XQ → XQ → Bool → Table → SR n) (d : ℕ) (b : Board n)
    (α β : XQ) (mx : Bool) (t : Table) : SR n :=
  match tlookup (zhash zt b) t with
  | some e =>
    if d ≤ e.depth then ⟨XQ.q e.score, none, b, t, 0, 0, 0⟩
    else mmBody enum next d b α β mx t (zhash zt b)
  | none => mmBody enum next d b α β mx t (zhash zt b)

/-- Method `minimax` (`FindBestMove`), by recursion on the depth. -/
def minimax : ℕ → Board n → XQ → XQ → Bool → Table → SR n
  | 0 => mmNode zt enum noSearch 0
  | d + 1 => mmNode zt enum (minimax d) (d + 1)

/-- The search function used for the recursive calls at depth `d`: the depth
`d - 1` search, or the never-invoked placeholder at depth 0. -/
def mmNext : ℕ → Board n → XQ → XQ → Bool → Table → SR n
  | 0 => noSearch
  | d + 1 => minimax zt enum d

/-- The candidate loop of the exhaustive reference search: no pruning, no
cache, same first-strict-improvement tie-breaking, same candidate
enumeration. -/
def exLoop (next : Board n → Bool → XQ × Option (Move n)) (mx : Bool) :
    List (Move n) → XQ → Option (Move n) → Board n → XQ × Option (Move n)
  | [], v, best, _ => (v, best)
  | m :: ms, v, best, b =>
    let ev := (next (setCell b m (if mx then 1 else 2)) (!mx)).1
    if (if mx then XQ.blt v ev else XQ.blt ev v) then exLoop next mx ms ev (some m) b
    else exLoop next mx ms v best b

/-- Modelled from the spec (testable property "alpha-beta equivalence"): an
"exhaustive (non-pruning) minimax over the same position" with "the same
candidate enumeration" — no transposition cache, no alpha-beta window, the
same terminal condition, and the same strict-improvement move selection. -/
def exhaustiveMinimax : ℕ → Board n → Bool → XQ × Option (Move n)
  | 0, b, _ => (XQ.q (evaluate_board b), none)
  | d + 1, b, mx =>
    if is_winning_move b 1 = true ∨ is_winning_move b 2 = true then
      (XQ.q (evaluate_board b), none)
    else
      exLoop (exhaustiveMinimax d) mx (enum b) (if mx then XQ.negInf else XQ.posInf) none b

end Search

/-- Maximum of two scores, with the tie going to the left argument. -/
def maxXQ (a b : XQ) : XQ := if XQ.blt a b then b else a

/-- A transposition table is valid when every binding stores the static score
of some board with that hash, recorded at a depth at which that board is
terminal (depth 0 or an already-won position).  `minimax` only ever creates
such bindings. -/
def ValidTable {n : ℕ} (zt : Fin n → Fin n → Fin 3 → ℕ) (t : Table) : Prop :=
  ∀ p ∈ t, ∃ b : Board n, zhash zt b = p.1 ∧ p.2.score = evaluate_board b ∧
    (p.2.depth = 0 ∨ is_winning_move b 1 = true ∨ is_winning_move b 2 = true)

/-- Specification predicate: the board holds five consecutive cells of value
`role` along one of the four scan directions, all in bounds. -/
def hasFive {n : ℕ} (b : Board n) (role : ℕ) : Prop :=
  ∃ x y : ℤ, ∃ d ∈ dirs, ∀ i : ℕ, i < 5 →
    0 ≤ x + i * d.1 ∧ x + i * d.1 < (n : ℤ) ∧ 0 ≤ y + i * d.2 ∧ y + i * d.2 < (n : ℤ) ∧
    bcell b (x + i * d.1) (y + i * d.2) = role

/-- Specification predicate: some cell of `role` starts a run that
`count_in_line` measures as exactly 5 in one of the four directions (the
early-return trigger of `evaluate_lines`). -/
def fiveInLine {n : ℕ} (b : Board n) (role : ℕ) : Prop :=
  ∃ c : Move n, (b c.1 c.2).val = role ∧
    ∃ d ∈ dirs, count_in_line b (c.1 : ℤ) (c.2 : ℤ) d.1 d.2 role = 5

instance {n : ℕ} (b : Board n) (role : ℕ) : Decidable (fiveInLine b role) := by
  unfold fiveInLine
  infer_instance

/-- Place a sequence of stones on a board, in order. -/
def applyStones {n : ℕ} (b : Board n) (l : List (Move n × Fin 3)) : Board n :=
  l.foldl (fun b2 p => setCell b2 p.1 p.2) b

/-- Row-major comparison on cells: ascending by row, then by column. -/
def rowColLE {n : ℕ} (a c : Move n) : Bool :=
  a.1 < c.1 || (a.1 == c.1 && a.2 ≤ c.2)

/-- Whether a list of cells is in ascending row-major order. -/
def sortedRM {n : ℕ} : List (Move n) → Bool
  | [] => true
  | [_] => true
  | a :: c :: l => rowColLE a c && sortedRM (c :: l)

/-- A Zobrist table with pairwise distinct powers of two, used to witness
hash injectivity on small boards. -/
def ztPow (n : ℕ) : Fin n → Fin n → Fin 3 → ℕ :=
  fun x y p => 2 ^ (2 * (x.val * n + y.val) + (p.val - 1))

/-- The empty board. -/
def bEmpty (n : ℕ) : Board n := fun _ _ => 0

/-- A 2x2 board with a single opponent stone at (0, 0). -/
def bOne2 : Board 2 := fun i j => if i = 0 ∧ j = 0 then 2 else 0

/-- A 3x3 board with a single opponent stone at the centre. -/
def bOne3 : Board 3 := fun i j => if i = 1 ∧ j = 1 then 2 else 0

/-- A 9x9 board with an open horizontal run of three own stones. -/
def bThree9 : Board 9 := fun i j => if i = 4 ∧ (j = 3 ∨ j = 4 ∨ j = 5) then 1 else 0

/-- A 9x9 board with one isolated own stone. -/
def bLone9 : Board 9 := fun i j => if i = 4 ∧ j = 4 then 1 else 0

/-- A 9x9 board with a horizontal run of five own stones. -/
def bFive9 : Board 9 := fun i j => if i = 4 ∧ (2 ≤ (j : ℕ) ∧ (j : ℕ) ≤ 6) then 1 else 0

/-- A table holding one binding for the hash of `bOne2`, at stored depth 3. -/
def tOne2 : Table := [(zhash (ztPow 2) bOne2, ⟨5, 3⟩)]

/-- Minimum of two scores, with the tie going to the left argument (the shape
of the running-beta update). -/
def minXQ (a b : XQ) : XQ := if XQ.blt b a then b else a

theorem XQ.blt_irrefl (a : XQ) : XQ.blt a a = false := by
  cases a <;> simp [XQ.blt]

theorem XQ.ble_refl (a : XQ) : XQ.ble a a = true := by
  simp [XQ.ble, XQ.blt_irrefl]

theorem XQ.ble_of_not_blt {a b : XQ} (h : XQ.blt a b = false) : XQ.ble b a = true := by
  simp [XQ.ble, h]

theorem XQ.not_blt_of_ble {a b : XQ} (h : XQ.ble a b = true) : XQ.blt b a = false := by
  simpa [XQ.ble] using h

theorem XQ.blt_trans {a b c : XQ} (h1 : XQ.blt a b = true) (h2 : XQ.blt b c = true) :
    XQ.blt a c = true := by
  cases a <;> cases b <;> cases c <;> simp_all [XQ.blt] <;> linarith

theorem XQ.ble_trans {a b c : XQ} (h1 : XQ.ble a b = true) (h2 : XQ.ble b c = true) :
    XQ.ble a c = true := by
  cases a <;> cases b <;> cases c <;> simp_all [XQ.ble, XQ.blt] <;> linarith

theorem XQ.blt_of_blt_of_ble {a b c : XQ} (h1 : XQ.blt a b = true) (h2 : XQ.ble b c = true) :
    XQ.blt a c = true := by
  cases a <;> cases b <;> cases c <;> simp_all [XQ.ble, XQ.blt] <;> linarith

theorem XQ.blt_of_ble_of_blt {a b c : XQ} (h1 : XQ.ble a b = true) (h2 : XQ.blt b c = true) :
    XQ.blt a c = true := by
  cases a <;> cases b <;> cases c <;> simp_all [XQ.ble, XQ.blt] <;> linarith

theorem XQ.ble_of_blt {a b : XQ} (h : XQ.blt a b = true) : XQ.ble a b = true := by
  cases a <;> cases b <;> simp_all [XQ.ble, XQ.blt] <;> linarith

theorem XQ.posInf_blt (a : XQ) : XQ.blt XQ.posInf a = false := by
  cases a <;> simp [XQ.blt]

theorem XQ.blt_negInf (a : XQ) : XQ.blt a XQ.negInf = false := by
  cases a <;> simp [XQ.blt]

theorem XQ.negInf_ble (a : XQ) : XQ.ble XQ.negInf a = true := by
  simp [XQ.ble, XQ.blt_negInf]

theorem XQ.ble_posInf (a : XQ) : XQ.ble a XQ.posInf = true := by
  simp [XQ.ble, XQ.posInf_blt]

theorem XQ.blt_posInf {a : XQ} (h : a ≠ XQ.posInf) : XQ.blt a XQ.posInf = true := by
  cases a <;> simp_all [XQ.blt]

theorem XQ.eq_posInf_of_ble {a : XQ} (h : XQ.ble XQ.posInf a = true) : a = XQ.posInf := by
  cases a <;> simp_all [XQ.ble, XQ.blt]

theorem maxXQ_negInf_left (a : XQ) : maxXQ XQ.negInf a = a := by
  cases a <;> simp [maxXQ, XQ.blt]

theorem maxXQ_negInf_right (a : XQ) : maxXQ a XQ.negInf = a := by
  cases a <;> simp [maxXQ, XQ.blt]

theorem maxXQ_posInf_left (a : XQ) : maxXQ XQ.posInf a = XQ.posInf := by
  cases a <;> simp [maxXQ, XQ.blt]

theorem maxXQ_posInf_right (a : XQ) : maxXQ a XQ.posInf = XQ.posInf := by
  cases a <;> simp [maxXQ, XQ.blt]

theorem maxXQ_q (x y : ℚ) : maxXQ (XQ.q x) (XQ.q y) = XQ.q (max x y) := by
  simp only [maxXQ, XQ.blt, decide_eq_true_eq]
  split_ifs with h
  · rw [max_eq_right (le_of_lt h)]
  · rw [max_eq_left (not_lt.mp h)]

theorem maxXQ_assoc (a b c : XQ) : maxXQ (maxXQ a b) c = maxXQ a (maxXQ b c) := by
  cases a <;> cases b <;> cases c <;>
    simp [maxXQ_negInf_left, maxXQ_negInf_right, maxXQ_posInf_left, maxXQ_posInf_right,
      maxXQ_q, max_assoc]

theorem ble_maxXQ_left (a b : XQ) : XQ.ble a (maxXQ a b) = true := by
  unfold maxXQ
  split
  · exact XQ.ble_of_blt ‹_›
  · exact XQ.ble_refl a

theorem ble_maxXQ_right (a b : XQ) : XQ.ble b (maxXQ a b) = true := by
  unfold maxXQ
  split
  · exact XQ.ble_refl b
  · exact XQ.ble_of_not_blt (Bool.eq_false_iff.mpr ‹_›)

theorem maxXQ_eq_left {a b : XQ} (h : XQ.blt a b = false) : maxXQ a b = a := by
  simp [maxXQ, h]

theorem maxXQ_eq_right {a b : XQ} (h : XQ.blt a b = true) : maxXQ a b = b := by
  simp [maxXQ, h]

theorem minXQ_posInf_left (a : XQ) : minXQ XQ.posInf a = a := by
  cases a <;> simp [minXQ, XQ.blt]

theorem minXQ_posInf_right (a : XQ) : minXQ a XQ.posInf = a := by
  cases a <;> simp [minXQ, XQ.blt]

theorem minXQ_negInf_left (a : XQ) : minXQ XQ.negInf a = XQ.negInf := by
  cases a <;> simp [minXQ, XQ.blt]

theorem minXQ_negInf_right (a : XQ) : minXQ a XQ.negInf = XQ.negInf := by
  cases a <;> simp [minXQ, XQ.blt]

theorem minXQ_q (x y : ℚ) : minXQ (XQ.q x) (XQ.q y) = XQ.q (min x y) := by
  simp only [minXQ, XQ.blt, decide_eq_true_eq]
  split_ifs with h
  · rw [min_eq_right (le_of_lt h)]
  · rw [min_eq_left (not_lt.mp h)]

theorem minXQ_assoc (a b c : XQ) : minXQ (minXQ a b) c = minXQ a (minXQ b c) := by
  cases a <;> cases b <;> cases c <;>
    simp [minXQ_posInf_left, minXQ_posInf_right, minXQ_negInf_left, minXQ_negInf_right,
      minXQ_q, min_assoc]

theorem ble_minXQ_left (a b : XQ) : XQ.ble (minXQ a b) a = true := by
  unfold minXQ
  split
  · exact XQ.ble_of_blt ‹_›
  · exact XQ.ble_refl a

theorem ble_minXQ_right (a b : XQ) : XQ.ble (minXQ a b) b = true := by
  unfold minXQ
  split
  · exact XQ.ble_refl b
  · exact XQ.ble_of_not_blt (Bool.eq_false_iff.mpr ‹_›)

theorem minXQ_eq_left {a b : XQ} (h : XQ.blt b a = false) : minXQ a b = a := by
  simp [minXQ, h]

theorem minXQ_eq_right {a b : XQ} (h : XQ.blt b a = true) : minXQ a b = b := by
  simp [minXQ, h]

theorem foldl_maxXQ_ble {γ : Type} (f : γ → XQ) :
    ∀ (l : List γ) (a : XQ), XQ.ble a (l.foldl (fun x m => maxXQ x (f m)) a) = true
  | [], a => XQ.ble_refl a
  | m :: l, a =>
    XQ.ble_trans (ble_maxXQ_left a (f m)) (foldl_maxXQ_ble f l (maxXQ a (f m)))

theorem foldl_maxXQ_start {γ : Type} (f : γ → XQ) :
    ∀ (l : List γ) (a c : XQ),
      l.foldl (fun x m => maxXQ x (f m)) (maxXQ a c) =
        maxXQ a (l.foldl (fun x m => maxXQ x (f m)) c)
  | [], _, _ => rfl
  | m :: l, a, c => by
    simp only [List.foldl_cons, maxXQ_assoc]
    exact foldl_maxXQ_start f l a (maxXQ c (f m))

theorem foldl_minXQ_ble {γ : Type} (f : γ → XQ) :
    ∀ (l : List γ) (a : XQ), XQ.ble (l.foldl (fun x m => minXQ x (f m)) a) a = true
  | [], a => XQ.ble_refl a
  | m :: l, a =>
    XQ.ble_trans (foldl_minXQ_ble f l (minXQ a (f m))) (ble_minXQ_left a (f m))

theorem foldl_minXQ_start {γ : Type} (f : γ → XQ) :
    ∀ (l : List γ) (a c : XQ),
      l.foldl (fun x m => minXQ x (f m)) (minXQ a c) =
        minXQ a (l.foldl (fun x m => minXQ x (f m)) c)
  | [], _, _ => rfl
  | m :: l, a, c => by
    simp only [List.foldl_cons, minXQ_assoc]
    exact foldl_minXQ_start f l a (minXQ c (f m))

theorem setCell_same {n : ℕ} (b : Board n) (m : Move n) (v : Fin 3) :
    setCell b m v m.1 m.2 = v := by
  simp [setCell]

theorem setCell_revert {n : ℕ} (b : Board n) (m : Move n) (v : Fin 3)
    (h : b m.1 m.2 = 0) : setCell (setCell b m v) m 0 = b := by
  funext i j
  by_cases hij : i = m.1 ∧ j = m.2
  · obtain ⟨h1, h2⟩ := hij
    subst h1
    subst h2
    simp [setCell, h]
  · simp [setCell, hij]

theorem setCell_comm {n : ℕ} (b : Board n) {m1 m2 : Move n} (v1 v2 : Fin 3)
    (h : m1 ≠ m2) :
    setCell (setCell b m1 v1) m2 v2 = setCell (setCell b m2 v2) m1 v1 := by
  have hne : ¬(m1.1 = m2.1 ∧ m1.2 = m2.2) := fun hc => h (Prod.ext hc.1 hc.2)
  have hne2 : ¬(m2.1 = m1.1 ∧ m2.2 = m1.2) := fun hc => h (Prod.ext hc.1.symm hc.2.symm)
  funext i j
  by_cases h1 : i = m1.1 ∧ j = m1.2 <;> by_cases h2 : i = m2.1 ∧ j = m2.2
  · exact absurd (Prod.ext (h1.1.symm.trans h2.1) (h1.2.symm.trans h2.2)) h
  · simp [setCell, h1, h2, hne, hne2]
  · simp [setCell, h1, h2, hne, hne2]
  · simp [setCell, h1, h2]

theorem mem_allCellsRM {n : ℕ} (c : Move n) : c ∈ allCellsRM n := by
  simp only [allCellsRM, List.mem_flatMap, List.mem_map]
  exact ⟨c.1, List.mem_finRange c.1, c.2, List.mem_finRange c.2, rfl⟩

theorem nodup_allCellsRM (n : ℕ) : (allCellsRM n).Nodup := by
  have h : allCellsRM n = List.finRange n ×ˢ List.finRange n := rfl
  rw [h]
  exact List.Nodup.product (List.nodup_finRange n) (List.nodup_finRange n)

theorem bcell_fin {n : ℕ} (b : Board n) (x y : Fin n) :
    bcell b ((x.val : ℤ)) ((y.val : ℤ)) = (b x y).val := by
  have hx : (0 : ℤ) ≤ (x.val : ℤ) ∧ (x.val : ℤ) < (n : ℤ) :=
    ⟨Int.natCast_nonneg _, by exact_mod_cast x.isLt⟩
  have hy : (0 : ℤ) ≤ (y.val : ℤ) ∧ (y.val : ℤ) < (n : ℤ) :=
    ⟨Int.natCast_nonneg _, by exact_mod_cast y.isLt⟩
  simp [bcell, hx, hy]

theorem cdGo_succ_iff {n : ℕ} (b : Board n) (role : ℕ) (dx dy : ℤ) :
    ∀ (k c : ℕ) (x y : ℤ), c + (k + 1) = 5 →
      (cdGo b role dx dy (k + 1) x y c = true ↔
        ∀ i : ℕ, i < k + 1 →
          0 ≤ x + i * dx ∧ x + i * dx < (n : ℤ) ∧ 0 ≤ y + i * dy ∧ y + i * dy < (n : ℤ) ∧
          bcell b (x + i * dx) (y + i * dy) = role) := by
  intro k
  induction k with
  | zero =>
    intro c x y hc
    have hc4 : c = 4 := by omega
    subst hc4
    simp only [cdGo, Nat.reduceAdd, if_true, reduceIte]
    constructor
    · intro hcd
      split_ifs at hcd with hco
      intro i hi
      interval_cases i
      simpa using hco
    · intro H
      have h0 : 0 ≤ x ∧ x < (n : ℤ) ∧ 0 ≤ y ∧ y < (n : ℤ) ∧ bcell b x y = role := by
        simpa using H 0 (by omega)
      simp [h0]
  | succ k IH =>
    intro c x y hc
    have hc1 : (c + 1) + (k + 1) = 5 := by omega
    have hne : ¬(c + 1 = 5) := by omega
    have hrw : ∀ (z dz : ℤ) (j : ℕ), z + ((j + 1 : ℕ) : ℤ) * dz = z + dz + (j : ℤ) * dz := by
      intro z dz j
      push_cast
      ring
    conv_lhs => rw [cdGo]
    rw [if_neg hne]
    by_cases hco : 0 ≤ x ∧ x < (n : ℤ) ∧ 0 ≤ y ∧ y < (n : ℤ) ∧ bcell b x y = role
    · rw [if_pos hco, IH (c + 1) (x + dx) (y + dy) hc1]
      constructor
      · intro H i hi
        match i with
        | 0 => simpa using hco
        | j + 1 =>
          simp only [hrw]
          exact H j (by omega)
      · intro H j hj
        have hj1 := H (j + 1) (by omega)
        simp only [hrw] at hj1
        exact hj1
    · rw [if_neg hco]
      constructor
      · intro h
        simp at h
      · intro H
        exact absurd (by simpa using H 0 (by omega)) hco

theorem check_direction_iff {n : ℕ} (b : Board n) (role : ℕ) (x y dx dy : ℤ) :
    check_direction b x y role dx dy = true ↔
      ∀ i : ℕ, i < 5 →
        0 ≤ x + i * dx ∧ x + i * dx < (n : ℤ) ∧ 0 ≤ y + i * dy ∧ y + i * dy < (n : ℤ) ∧
        bcell b (x + i * dx) (y + i * dy) = role :=
  cdGo_succ_iff b role dx dy 4 0 x y (by omega)

/-- C7: `is_winning_move(role)` is true exactly when the board holds five
consecutive cells of `role` along a row, a column, or one of the two
diagonals (all in bounds); in particular it is false on every board with no
unbroken five, such as a run of four broken by a gap. -/
theorem claim_C7 {n : ℕ} (b : Board n) (role : ℕ) :
    is_winning_move b role = true ↔ hasFive b role := by
  constructor
  · intro hw
    simp only [is_winning_move, List.any_eq_true, Bool.and_eq_true, beq_iff_eq] at hw
    obtain ⟨x, -, y, -, hcell, d, hd, hcd⟩ := hw
    refine ⟨(x.val : ℤ), (y.val : ℤ), d, hd, ?_⟩
    exact (check_direction_iff b role _ _ d.1 d.2).mp hcd
  · rintro ⟨x, y, d, hd, H⟩
    have h0 : 0 ≤ x ∧ x < (n : ℤ) ∧ 0 ≤ y ∧ y < (n : ℤ) ∧ bcell b x y = role := by
      simpa using H 0 (by omega)
    obtain ⟨hx0, hxn, hy0, hyn, hcell⟩ := h0
    simp only [is_winning_move, List.any_eq_true, Bool.and_eq_true, beq_iff_eq]
    refine ⟨⟨x.toNat, by omega⟩, List.mem_finRange _, ⟨y.toNat, by omega⟩,
      List.mem_finRange _, ?_, d, hd, ?_⟩
    · rw [← bcell_fin]
      simp only [Int.toNat_of_nonneg hx0, Int.toNat_of_nonneg hy0]
      exact hcell
    · rw [check_direction_iff]
      simp only [Int.toNat_of_nonneg hx0, Int.toNat_of_nonneg hy0]
      exact H

theorem dirLoop_eq_none_iff {n : ℕ} (b : Board n) (role : ℕ) (x y : ℤ) :
    ∀ (ds : List (ℤ × ℤ)) (s : ℕ),
      dirLoop b role x y ds s = none ↔
        ∃ d ∈ ds, count_in_line b x y d.1 d.2 role = 5
  | [], s => by simp [dirLoop]
  | d :: ds, s => by
    simp only [dirLoop]
    split_ifs with h5
    · simp [h5]
    · rw [dirLoop_eq_none_iff b role x y ds]
      simp [h5]

theorem dirLoop_eq_some {n : ℕ} (b : Board n) (role : ℕ) (x y : ℤ) :
    ∀ (ds : List (ℤ × ℤ)) (s : ℕ),
      (¬∃ d ∈ ds, count_in_line b x y d.1 d.2 role = 5) →
      dirLoop b role x y ds s =
        some (s + (ds.map fun d => dirPts (count_in_line b x y d.1 d.2 role)).sum)
  | [], s, _ => by simp [dirLoop]
  | d :: ds, s, h => by
    simp only [dirLoop]
    have h5 : ¬(count_in_line b x y d.1 d.2 role = 5) := fun hc => h ⟨d, by simp, hc⟩
    rw [if_neg h5, dirLoop_eq_some b role x y ds _ (fun ⟨d2, hd2, hc⟩ => h ⟨d2, by simp [hd2], hc⟩)]
    simp [Nat.add_assoc]

theorem elGo_cons_none {n : ℕ} {b : Board n} {role : ℕ} {c : Move n} {cs : List (Move n)}
    {s : ℕ} (hc : (b c.1 c.2).val = role)
    (h : dirLoop b role (c.1 : ℤ) (c.2 : ℤ) dirs s = none) :
    elGo b role (c :: cs) s = 10000 := by
  simp only [elGo]
  rw [if_pos hc, h]

theorem elGo_cons_some {n : ℕ} {b : Board n} {role : ℕ} {c : Move n} {cs : List (Move n)}
    {s s2 : ℕ} (hc : (b c.1 c.2).val = role)
    (h : dirLoop b role (c.1 : ℤ) (c.2 : ℤ) dirs s = some s2) :
    elGo b role (c :: cs) s = elGo b role cs s2 := by
  simp only [elGo]
  rw [if_pos hc, h]

theorem elGo_cons_skip {n : ℕ} {b : Board n} {role : ℕ} {c : Move n} {cs : List (Move n)}
    {s : ℕ} (hc : ¬(b c.1 c.2).val = role) :
    elGo b role (c :: cs) s = elGo b role cs s := by
  simp only [elGo]
  rw [if_neg hc]

theorem elGo_eq_10000 {n : ℕ} (b : Board n) (role : ℕ) :
    ∀ (cs : List (Move n)) (s : ℕ),
      (∃ c ∈ cs, (b c.1 c.2).val = role ∧
        ∃ d ∈ dirs, count_in_line b (c.1 : ℤ) (c.2 : ℤ) d.1 d.2 role = 5) →
      elGo b role cs s = 10000
  | [], s, h => by simp at h
  | c :: cs, s, h => by
    by_cases hc : (b c.1 c.2).val = role
    · by_cases h5 : ∃ d ∈ dirs, count_in_line b (c.1 : ℤ) (c.2 : ℤ) d.1 d.2 role = 5
      · exact elGo_cons_none hc ((dirLoop_eq_none_iff b role _ _ dirs s).mpr h5)
      · rw [elGo_cons_some hc (dirLoop_eq_some b role _ _ dirs s h5)]
        refine elGo_eq_10000 b role cs _ ?_
        rcases h with ⟨c2, hmem, hrole, hfive⟩
        rcases List.mem_cons.mp hmem with heq | htail
        · subst heq
          exact absurd hfive h5
        · exact ⟨c2, htail, hrole, hfive⟩
    · rw [elGo_cons_skip hc]
      refine elGo_eq_10000 b role cs s ?_
      rcases h with ⟨c2, hmem, hrole, hfive⟩
      rcases List.mem_cons.mp hmem with heq | htail
      · subst heq
        exact absurd hrole hc
      · exact ⟨c2, htail, hrole, hfive⟩

theorem elGo_eq_sum {n : ℕ} (b : Board n) (role : ℕ) :
    ∀ (cs : List (Move n)) (s : ℕ),
      (¬∃ c ∈ cs, (b c.1 c.2).val = role ∧
        ∃ d ∈ dirs, count_in_line b (c.1 : ℤ) (c.2 : ℤ) d.1 d.2 role = 5) →
      elGo b role cs s =
        s + ((cs.filter fun c => (b c.1 c.2).val == role).map
          (fun c => (dirs.map fun d =>
            dirPts (count_in_line b (c.1 : ℤ) (c.2 : ℤ) d.1 d.2 role)).sum)).sum
  | [], s, _ => by simp [elGo]
  | c :: cs, s, h => by
    by_cases hc : (b c.1 c.2).val = role
    · have h5 : ¬∃ d ∈ dirs, count_in_line b (c.1 : ℤ) (c.2 : ℤ) d.1 d.2 role = 5 :=
        fun hf => h ⟨c, by simp, hc, hf⟩
      rw [elGo_cons_some hc (dirLoop_eq_some b role _ _ dirs s h5)]
      rw [elGo_eq_sum b role cs _ (fun ⟨c2, hm, hr, hf⟩ => h ⟨c2, by simp [hm], hr, hf⟩)]
      simp [hc, Nat.add_assoc]
    · rw [elGo_cons_skip hc]
      rw [elGo_eq_sum b role cs s (fun ⟨c2, hm, hr, hf⟩ => h ⟨c2, by simp [hm], hr, hf⟩)]
      simp [hc]

/-- C9: the per-player line score of `evaluate_lines` maps run lengths through
4 to 100, 3 to 10, 2 to 1, at most 1 to 0, summed over every (occupied cell,
direction) pair of the player, except that it returns the fixed bonus 10000 as
soon as any run of length 5 is found; the overall score is
`ownScore * 1.2 - opponentScore` with 1.2 the exact rational 6/5; an open
horizontal run of three own stones scores exactly 11, and an isolated single
stone scores 0. -/
theorem claim_C9 :
    (∀ (n : ℕ) (b : Board n) (role : ℕ), fiveInLine b role →
      evaluate_lines b role = 10000) ∧
    (∀ (n : ℕ) (b : Board n) (role : ℕ), ¬fiveInLine b role →
      evaluate_lines b role =
        (((allCellsRM n).filter fun c => (b c.1 c.2).val == role).map
          (fun c => (dirs.map fun d =>
            dirPts (count_in_line b (c.1 : ℤ) (c.2 : ℤ) d.1 d.2 role)).sum)).sum) ∧
    (dirPts 5 = 0 ∧ dirPts 4 = 100 ∧ dirPts 3 = 10 ∧ dirPts 2 = 1 ∧ dirPts 1 = 0 ∧
      dirPts 0 = 0) ∧
    (∀ (n : ℕ) (b : Board n), evaluate_board b =
      (evaluate_lines b 1 : ℚ) * 1.2 - (evaluate_lines b 2 : ℚ)) ∧
    ((1.2 : ℚ) = 6 / 5) ∧
    evaluate_lines bThree9 1 = 11 ∧
    evaluate_lines bLone9 1 = 0 := by
  refine ⟨?_, ?_, by decide, fun n b => rfl, by norm_num, by decide, by decide⟩
  · intro n b role hf
    rcases hf with ⟨c, hrole, hfive⟩
    exact elGo_eq_10000 b role (allCellsRM n) 0 ⟨c, mem_allCellsRM c, hrole, hfive⟩
  · intro n b role hf
    have h : ¬∃ c ∈ allCellsRM n, (b c.1 c.2).val = role ∧
        ∃ d ∈ dirs, count_in_line b (c.1 : ℤ) (c.2 : ℤ) d.1 d.2 role = 5 :=
      fun ⟨c, _, hr, h5⟩ => hf ⟨c, hr, h5⟩
    simpa using elGo_eq_sum b role (allCellsRM n) 0 h

theorem offRange_mem (z : ℤ) :
    z ∈ ((List.range 5).map fun i : ℕ => (i : ℤ) - 2) ↔ -2 ≤ z ∧ z ≤ 2 := by
  simp only [List.mem_map, List.mem_range]
  constructor
  · rintro ⟨i, hi, rfl⟩
    omega
  · intro h
    exact ⟨(z + 2).toNat, by omega, by omega⟩

theorem neighOffsets_mem (p : ℤ × ℤ) :
    p ∈ neighOffsets ↔ -2 ≤ p.1 ∧ p.1 ≤ 2 ∧ -2 ≤ p.2 ∧ p.2 ≤ 2 := by
  unfold neighOffsets
  rw [List.mem_flatMap]
  constructor
  · rintro ⟨dx, hdx, hp⟩
    rcases List.mem_map.mp hp with ⟨dy, hdy, hpe⟩
    subst hpe
    rw [offRange_mem] at hdx hdy
    exact ⟨hdx.1, hdx.2, hdy.1, hdy.2⟩
  · intro h
    exact ⟨p.1, (offRange_mem p.1).mpr ⟨h.1, h.2.1⟩,
      List.mem_map.mpr ⟨p.2, (offRange_mem p.2).mpr ⟨h.2.2.1, h.2.2.2⟩, Prod.mk.eta⟩⟩

theorem fin_mk_eq_iff {n : ℕ} (m : Fin n) (z : ℤ) (h0 : 0 ≤ z) (hn : z < (n : ℤ)) :
    (m = ⟨z.toNat, by omega⟩) ↔ (m.val : ℤ) = z := by
  constructor
  · intro h
    subst h
    exact Int.toNat_of_nonneg h0
  · intro h
    exact Fin.ext (show m.val = z.toNat by omega)

theorem availInsert_mem_iff {n : ℕ} (b : Board n) (c : Move n) (s : Finset (Move n))
    (m : Move n) :
    m ∈ availInsert b s c ↔ m ∈ s ∨ ∃ d ∈ neighOffsets, availCond b c d ∧
      (m.1.val : ℤ) = (c.1 : ℤ) + d.1 ∧ (m.2.val : ℤ) = (c.2 : ℤ) + d.2 := by
  unfold availInsert
  generalize neighOffsets = l
  induction l generalizing s with
  | nil => simp
  | cons d l IH =>
    rw [List.foldl_cons]
    by_cases hcond : availCond b c d
    · rw [dif_pos hcond]
      rw [IH]
      simp only [Finset.mem_insert, List.exists_mem_cons_iff]
      constructor
      · rintro (hins | htail)
        · rcases hins with heq | hs
          · refine Or.inr (Or.inl ⟨hcond, ?_⟩)
            rw [Prod.ext_iff] at heq
            exact ⟨(fin_mk_eq_iff m.1 _ hcond.1.1 hcond.1.2).mp heq.1,
              (fin_mk_eq_iff m.2 _ hcond.2.1.1 hcond.2.1.2).mp heq.2⟩
          · exact Or.inl hs
        · exact Or.inr (Or.inr htail)
      · rintro (hs | ⟨⟨hcond2, h1, h2⟩ | htail⟩)
        · exact Or.inl (Or.inr hs)
        · refine Or.inl (Or.inl (Prod.ext ?_ ?_))
          · exact (fin_mk_eq_iff m.1 _ hcond.1.1 hcond.1.2).mpr h1
          · exact (fin_mk_eq_iff m.2 _ hcond.2.1.1 hcond.2.1.2).mpr h2
        · exact Or.inr htail
    · rw [dif_neg hcond]
      rw [IH]
      simp only [List.exists_mem_cons_iff]
      constructor
      · rintro (hs | htail)
        · exact Or.inl hs
        · exact Or.inr (Or.inr htail)
      · rintro (hs | ⟨⟨hcond2, -⟩ | htail⟩)
        · exact Or.inl hs
        · exact absurd hcond2 hcond
        · exact Or.inr htail

theorem foldl_availInsert_mem_iff {n : ℕ} (b : Board n) (m : Move n) :
    ∀ (l : List (Move n)) (s : Finset (Move n)),
      m ∈ l.foldl (availInsert b) s ↔ m ∈ s ∨ ∃ c ∈ l, ∃ d ∈ neighOffsets,
        availCond b c d ∧
        (m.1.val : ℤ) = (c.1 : ℤ) + d.1 ∧ (m.2.val : ℤ) = (c.2 : ℤ) + d.2
  | [], s => by simp
  | c :: l, s => by
    rw [List.foldl_cons, foldl_availInsert_mem_iff b m l, availInsert_mem_iff,
      List.exists_mem_cons_iff]
    exact or_assoc

theorem fin3_val_eq_zero {v : Fin 3} (h : v.val = 0) : v = 0 :=
  Fin.ext h

theorem mem_available_moves_iff {n : ℕ} (b : Board n) (m : Move n) :
    m ∈ available_moves b ↔ b m.1 m.2 = 0 ∧ ∃ c : Move n, b c.1 c.2 ≠ 0 ∧
      ((m.1.val : ℤ) - (c.1.val : ℤ)).natAbs ≤ 2 ∧
      ((m.2.val : ℤ) - (c.2.val : ℤ)).natAbs ≤ 2 := by
  unfold available_moves
  rw [foldl_availInsert_mem_iff]
  simp only [Finset.not_mem_empty, false_or]
  constructor
  · rintro ⟨c, hc, d, hd, hcond, h1, h2⟩
    have htk := List.mem_filter.mp hc
    have hcne : b c.1 c.2 ≠ 0 := by
      have := htk.2
      simpa [bne_iff_ne] using this
    have hbm : b m.1 m.2 = 0 := by
      have hcell := hcond.2.2
      rw [← h1, ← h2, bcell_fin] at hcell
      exact fin3_val_eq_zero hcell
    have hdb := (neighOffsets_mem d).mp hd
    exact ⟨hbm, c, hcne, by omega, by omega⟩
  · rintro ⟨hbm, c, hcne, h1, h2⟩
    refine ⟨c, List.mem_filter.mpr ⟨mem_allCellsRM c, by simpa [bne_iff_ne] using hcne⟩,
      ((m.1.val : ℤ) - (c.1.val : ℤ), (m.2.val : ℤ) - (c.2.val : ℤ)),
      (neighOffsets_mem _).mpr ⟨by omega, by omega, by omega, by omega⟩, ?_, by ring, by ring⟩
    have e1 : (c.1.val : ℤ) + ((m.1.val : ℤ) - (c.1.val : ℤ)) = (m.1.val : ℤ) := by ring
    have e2 : (c.2.val : ℤ) + ((m.2.val : ℤ) - (c.2.val : ℤ)) = (m.2.val : ℤ) := by ring
    refine ⟨?_, ?_, ?_⟩
    · rw [e1]
      exact ⟨Int.natCast_nonneg _, by exact_mod_cast m.1.isLt⟩
    · rw [e2]
      exact ⟨Int.natCast_nonneg _, by exact_mod_cast m.2.isLt⟩
    · rw [e1, e2, bcell_fin, hbm]
      rfl

theorem available_moves_empty {n : ℕ} (b : Board n) (m : Move n)
    (h : m ∈ available_moves b) : b m.1 m.2 = 0 :=
  ((mem_available_moves_iff b m).mp h).1

theorem enumSpec_rmEnum {n : ℕ} : EnumSpec (rmEnum (n := n)) := by
  intro b
  constructor
  · exact (nodup_allCellsRM n).filter _
  · intro m
    simp [rmEnum, List.mem_filter, mem_allCellsRM]

theorem enumSpec_rmEnumRev {n : ℕ} : EnumSpec (rmEnumRev (n := n)) := by
  intro b
  constructor
  · exact (List.nodup_reverse).mpr ((enumSpec_rmEnum b).1)
  · intro m
    rw [rmEnumRev, List.mem_reverse]
    exact (enumSpec_rmEnum b).2 m

/-- C6 (amended): `available_moves` determines its result only as a set — a
cell is a candidate exactly when it is empty and within Chebyshev distance 2
of some occupied cell — and that set is a deterministic function of the board
contents (with no duplicates, being a set); the iteration order of the Python
`set` it is returned from is unspecified, not ascending row-then-column. -/
theorem claim_C6 {n : ℕ} (b : Board n) (m : Move n) :
    m ∈ available_moves b ↔ b m.1 m.2 = 0 ∧ ∃ c : Move n, b c.1 c.2 ≠ 0 ∧
      ((m.1.val : ℤ) - (c.1.val : ℤ)).natAbs ≤ 2 ∧
      ((m.2.val : ℤ) - (c.2.val : ℤ)).natAbs ≤ 2 :=
  mem_available_moves_iff b m

/-- C6 (counterexample): the reversed row-major listing is also an admissible
enumeration of the candidate set (the code's `list(<set>)` pins down nothing
more than the set), and on a concrete board it is not in ascending
row-then-column order, and differs from the row-major listing; so the claimed
ascending order is not a property of `available_moves`. -/
theorem claim_C6_counterexample :
    EnumSpec (rmEnumRev (n := 3)) ∧ sortedRM (rmEnumRev bOne3) = false ∧
      rmEnumRev bOne3 ≠ rmEnum bOne3 :=
  ⟨enumSpec_rmEnumRev, by decide, by decide⟩

theorem foldl_flatMap_eq {α β γ : Type} (l : List α) (f : α → List β) (g : γ → β → γ) :
    ∀ a, (l.flatMap f).foldl g a = l.foldl (fun acc x => (f x).foldl g acc) a := by
  induction l with
  | nil => intro a; rfl
  | cons x l IH =>
    intro a
    simp only [List.flatMap_cons, List.foldl_append, List.foldl_cons]
    exact IH _

theorem foldl_dite_filter {α γ : Type} (P : α → Prop) [DecidablePred P] (g : γ → α → γ) :
    ∀ (l : List α) (a : γ),
      l.foldl (fun acc c => if P c then g acc c else acc) a =
        (l.filter fun c => decide (P c)).foldl g a := by
  intro l
  induction l with
  | nil => intro a; rfl
  | cons x l IH =>
    intro a
    by_cases hx : P x <;> simp [List.filter_cons, hx, IH]

theorem fin3_bne_decide : ∀ v w : Fin 3, (v != w) = decide (v ≠ w) := by decide

theorem zhash_eq_foldl {n : ℕ} (zt : Fin n → Fin n → Fin 3 → ℕ) (b : Board n) :
    zhash zt b = ((allCellsRM n).filter fun c => b c.1 c.2 != 0).foldl
      (fun acc c => acc ^^^ zt c.1 c.2 (b c.1 c.2)) 0 := by
  have h1 : zhash zt b = (allCellsRM n).foldl
      (fun acc c => if b c.1 c.2 ≠ 0 then acc ^^^ zt c.1 c.2 (b c.1 c.2) else acc) 0 := by
    unfold zhash allCellsRM
    rw [foldl_flatMap_eq]
    simp only [List.foldl_map]
  have h2 : (fun c : Move n => b c.1 c.2 != 0) =
      (fun c : Move n => decide (b c.1 c.2 ≠ 0)) := by
    funext c
    exact fin3_bne_decide _ _
  rw [h1, h2, foldl_dite_filter]

theorem applyStones_cons {n : ℕ} (b : Board n) (p : Move n × Fin 3)
    (l : List (Move n × Fin 3)) :
    applyStones b (p :: l) = applyStones (setCell b p.1 p.2) l := rfl

theorem applyStones_perm {n : ℕ} :
    ∀ {l1 l2 : List (Move n × Fin 3)}, l1.Perm l2 → (l1.map Prod.fst).Nodup →
      ∀ b : Board n, applyStones b l1 = applyStones b l2 := by
  intro l1 l2 hperm
  induction hperm with
  | nil => intro _ b; rfl
  | cons p hp IH =>
    intro hnd b
    rw [applyStones_cons, applyStones_cons]
    refine IH ?_ _
    simp only [List.map_cons, List.nodup_cons] at hnd
    exact hnd.2
  | swap x y l =>
    intro hnd b
    rw [applyStones_cons, applyStones_cons, applyStones_cons, applyStones_cons]
    have hne : y.1 ≠ x.1 := by
      simp only [List.map_cons, List.nodup_cons, List.mem_cons] at hnd
      exact fun hc => hnd.1 (Or.inl hc)
    rw [setCell_comm b y.2 x.2 hne]
  | trans h1 h2 IH1 IH2 =>
    intro hnd b
    rw [IH1 hnd b]
    exact IH2 ((h1.map Prod.fst).nodup_iff.mp hnd) b

/-- C8: the position fingerprint `zobrist_hash` equals the exclusive-or of the
Zobrist-table entries of exactly the occupied cells (a pure function of the
board, with no side effects); the exclusive-or makes it independent of
enumeration order, so two boards built by placing the same stones in any two
orders have the same fingerprint. -/
theorem claim_C8 :
    (∀ (n : ℕ) (zt : Fin n → Fin n → Fin 3 → ℕ) (b : Board n),
      zhash zt b = ((allCellsRM n).filter fun c => b c.1 c.2 != 0).foldl
        (fun acc c => acc ^^^ zt c.1 c.2 (b c.1 c.2)) 0) ∧
    (∀ (n : ℕ) (zt : Fin n → Fin n → Fin 3 → ℕ) (b : Board n) (l : List (Move n)),
      l.Perm ((allCellsRM n).filter fun c => b c.1 c.2 != 0) →
      l.foldl (fun acc c => acc ^^^ zt c.1 c.2 (b c.1 c.2)) 0 = zhash zt b) ∧
    (∀ (n : ℕ) (zt : Fin n → Fin n → Fin 3 → ℕ) (b : Board n)
      (l1 l2 : List (Move n × Fin 3)),
      l1.Perm l2 → (l1.map Prod.fst).Nodup →
      zhash zt (applyStones b l1) = zhash zt (applyStones b l2)) := by
  refine ⟨fun n zt b => zhash_eq_foldl zt b, ?_, ?_⟩
  · intro n zt b l hperm
    rw [zhash_eq_foldl zt b]
    exact hperm.foldl_eq' (fun x _ y _ z => by
      rw [Nat.xor_assoc, Nat.xor_assoc, Nat.xor_comm (zt x.1 x.2 (b x.1 x.2))]) 0
  · intro n zt b l1 l2 hperm hnd
    rw [applyStones_perm hperm hnd b]

/-- Witness for C9: a horizontal five scores the 10000 bonus, and the lone
stone's score is the (empty) sum over its (cell, direction) pairs. -/
theorem claim_C9_witness :
    evaluate_lines bFive9 1 = 10000 ∧
    evaluate_lines bLone9 1 =
      (((allCellsRM 9).filter fun c => (bLone9 c.1 c.2).val == 1).map
        (fun c => (dirs.map fun d =>
          dirPts (count_in_line bLone9 (c.1 : ℤ) (c.2 : ℤ) d.1 d.2 1)).sum)).sum :=
  ⟨claim_C9.1 9 bFive9 1 (by decide), claim_C9.2.1 9 bLone9 1 (by decide)⟩

/-- Witness for C8: the xor-fold over the occupied cells of a 2x2 board is
order independent, and two opposite placement orders of two stones hash
equal. -/
theorem claim_C8_witness :
    ((((allCellsRM 2).filter fun c => bOne2 c.1 c.2 != 0).reverse).foldl
        (fun acc c => acc ^^^ ztPow 2 c.1 c.2 (bOne2 c.1 c.2)) 0 =
      zhash (ztPow 2) bOne2) ∧
    zhash (ztPow 2) (applyStones (bEmpty 2) [((0, 0), 2), ((1, 1), 1)]) =
      zhash (ztPow 2) (applyStones (bEmpty 2) [((1, 1), 1), ((0, 0), 2)]) :=
  ⟨claim_C8.2.1 2 (ztPow 2) bOne2 _ (List.reverse_perm _),
   claim_C8.2.2 2 (ztPow 2) (bEmpty 2) _ _ (List.Perm.swap _ _ _) (by decide)⟩

section SearchLemmas

variable {n : ℕ} (zt : Fin n → Fin n → Fin 3 → ℕ) (enum : Board n → List (Move n))

theorem minimax_eq_mmNode (d : ℕ) :
    minimax zt enum d = mmNode zt enum (mmNext zt enum d) d := by
  cases d <;> rfl

theorem mmNode_hit (next : Board n → XQ → XQ → Bool → Table → SR n) (d : ℕ) (b : Board n)
    (α β : XQ) (mx : Bool) (t : Table) (e : TEntry)
    (htl : tlookup (zhash zt b) t = some e) (hd : d ≤ e.depth) :
    mmNode zt enum next d b α β mx t = ⟨XQ.q e.score, none, b, t, 0, 0, 0⟩ := by
  unfold mmNode
  rw [htl]
  simp [hd]

theorem mmNode_missBody (next : Board n → XQ → XQ → Bool → Table → SR n) (d : ℕ)
    (b : Board n) (α β : XQ) (mx : Bool) (t : Table)
    (hm : ∀ e, tlookup (zhash zt b) t = some e → ¬(d ≤ e.depth)) :
    mmNode zt enum next d b α β mx t = mmBody enum next d b α β mx t (zhash zt b) := by
  unfold mmNode
  cases htl : tlookup (zhash zt b) t with
  | none => rfl
  | some e => simp [hm e htl]

theorem minimax_hit (d : ℕ) (b : Board n) (α β : XQ) (mx : Bool) (t : Table) (e : TEntry)
    (htl : tlookup (zhash zt b) t = some e) (hd : d ≤ e.depth) :
    minimax zt enum d b α β mx t = ⟨XQ.q e.score, none, b, t, 0, 0, 0⟩ := by
  rw [minimax_eq_mmNode]
  exact mmNode_hit zt enum _ d b α β mx t e htl hd

theorem minimax_miss (d : ℕ) (b : Board n) (α β : XQ) (mx : Bool) (t : Table)
    (hm : ∀ e, tlookup (zhash zt b) t = some e → e.depth < d) :
    minimax zt enum d b α β mx t =
      mmBody enum (mmNext zt enum d) d b α β mx t (zhash zt b) := by
  rw [minimax_eq_mmNode]
  exact mmNode_missBody zt enum _ d b α β mx t (fun e he => by have := hm e he; omega)

theorem mmBody_terminal (next : Board n → XQ → XQ → Bool → Table → SR n) (d : ℕ)
    (b : Board n) (α β : XQ) (mx : Bool) (t : Table) (h : ℕ)
    (ht : d = 0 ∨ is_winning_move b 1 = true ∨ is_winning_move b 2 = true) :
    mmBody enum next d b α β mx t h =
      ⟨XQ.q (evaluate_board b), none, b, (h, ⟨evaluate_board b, d⟩) :: t, 1,
        (if d = 0 then 0 else if is_winning_move b 1 then 1 else 2), 0⟩ := by
  unfold mmBody
  rw [if_pos ht]

theorem mmBody_loop (next : Board n → XQ → XQ → Bool → Table → SR n) (d : ℕ)
    (b : Board n) (α β : XQ) (mx : Bool) (t : Table) (h : ℕ)
    (ht : ¬(d = 0 ∨ is_winning_move b 1 = true ∨ is_winning_move b 2 = true)) :
    mmBody enum next d b α β mx t h = abLoop next mx (enum b) α β none b t 0 2 0 := by
  unfold mmBody
  rw [if_neg ht]

theorem abLoop_board (next : Board n → XQ → XQ → Bool → Table → SR n) (mx : Bool)
    (Hn : ∀ b α β mx2 t, (next b α β mx2 t).board = b) :
    ∀ (ms : List (Move n)) (α β : XQ) (best : Option (Move n)) (b : Board n) (t : Table)
      (ce cw cr : ℕ), (∀ m ∈ ms, b m.1 m.2 = 0) →
      (abLoop next mx ms α β best b t ce cw cr).board = b
  | [], _, _, _, _, _, _, _, _, _ => rfl
  | m :: ms, α, β, best, b, t, ce, cw, cr, hms => by
    have hb0 : b m.1 m.2 = 0 := hms m (List.mem_cons_self m ms)
    have hrest : ∀ m2 ∈ ms, b m2.1 m2.2 = 0 :=
      fun m2 hm2 => hms m2 (List.mem_cons_of_mem m hm2)
    cases mx <;>
      (simp only [abLoop, Hn, setCell_revert b m _ hb0, Bool.true_and, Bool.false_and,
        Bool.not_true, Bool.not_false, Bool.false_eq_true, if_false, if_true]
       split <;> (try split) <;>
         first
           | rfl
           | exact abLoop_board next _ Hn ms _ _ _ b _ _ _ _ hrest)

theorem mmBody_board (next : Board n → XQ → XQ → Bool → Table → SR n)
    (Hn : ∀ b α β mx2 t, (next b α β mx2 t).board = b) (he : EnumSpec enum) (d : ℕ)
    (b : Board n) (α β : XQ) (mx : Bool) (t : Table) (h : ℕ) :
    (mmBody enum next d b α β mx t h).board = b := by
  unfold mmBody
  split
  · rfl
  · exact abLoop_board next mx Hn (enum b) α β none b t 0 2 0
      (fun m hm => available_moves_empty b m (((he b).2 m).mp hm))

theorem mmNode_board (next : Board n → XQ → XQ → Bool → Table → SR n)
    (Hn : ∀ b α β mx2 t, (next b α β mx2 t).board = b) (he : EnumSpec enum) (d : ℕ)
    (b : Board n) (α β : XQ) (mx : Bool) (t : Table) :
    (mmNode zt enum next d b α β mx t).board = b := by
  by_cases hhit : ∃ e, tlookup (zhash zt b) t = some e ∧ d ≤ e.depth
  · obtain ⟨e, htl, hd⟩ := hhit
    rw [mmNode_hit zt enum next d b α β mx t e htl hd]
  · have hm : ∀ e, tlookup (zhash zt b) t = some e → ¬(d ≤ e.depth) :=
      fun e he hd => hhit ⟨e, he, hd⟩
    rw [mmNode_missBody zt enum next d b α β mx t hm]
    exact mmBody_board enum next Hn he d b α β mx t _

theorem minimax_board (he : EnumSpec enum) :
    ∀ (d : ℕ) (b : Board n) (α β : XQ) (mx : Bool) (t : Table),
      (minimax zt enum d b α β mx t).board = b := by
  intro d
  induction d with
  | zero =>
    intro b α β mx t
    exact mmNode_board zt enum noSearch (fun _ _ _ _ _ => rfl) he 0 b α β mx t
  | succ d IH =>
    intro b α β mx t
    exact mmNode_board zt enum (minimax zt enum d) (fun b2 α2 β2 mx2 t2 => IH b2 α2 β2 mx2 t2)
      he (d + 1) b α β mx t

theorem abLoop_cons_true (next : Board n → XQ → XQ → Bool → Table → SR n)
    (ms : List (Move n)) (α β : XQ) (best : Option (Move n)) (b : Board n) (t : Table)
    (ce cw cr : ℕ) (m : Move n) :
    abLoop next true (m :: ms) α β best b t ce cw cr =
      (let r := next (setCell b m 1) α β false t
       let α2 := if XQ.blt α r.score then r.score else α
       let best2 := if XQ.blt α r.score then some m else best
       if XQ.ble β α2 then
         ⟨α2, best2, setCell r.board m 0, r.table, ce + r.evalCalls, cw + r.winCalls,
           cr + 1 + r.recCalls⟩
       else abLoop next true ms α2 β best2 (setCell r.board m 0) r.table (ce + r.evalCalls)
         (cw + r.winCalls) (cr + 1 + r.recCalls)) := rfl

theorem abLoop_cons_false (next : Board n → XQ → XQ → Bool → Table → SR n)
    (ms : List (Move n)) (α β : XQ) (best : Option (Move n)) (b : Board n) (t : Table)
    (ce cw cr : ℕ) (m : Move n) :
    abLoop next false (m :: ms) α β best b t ce cw cr =
      (let r := next (setCell b m 2) α β true t
       let β2 := if XQ.blt r.score β then r.score else β
       let best2 := if XQ.blt r.score β then some m else best
       if XQ.ble β2 α then
         ⟨β2, best2, setCell r.board m 0, r.table, ce + r.evalCalls, cw + r.winCalls,
           cr + 1 + r.recCalls⟩
       else abLoop next false ms α β2 best2 (setCell r.board m 0) r.table (ce + r.evalCalls)
         (cw + r.winCalls) (cr + 1 + r.recCalls)) := rfl

theorem abLoop_move (next : Board n → XQ → XQ → Bool → Table → SR n) (mx : Bool) :
    ∀ (ms : List (Move n)) (α β : XQ) (best : Option (Move n)) (b : Board n) (t : Table)
      (ce cw cr : ℕ) (m : Move n),
      (abLoop next mx ms α β best b t ce cw cr).move = some m → m ∈ ms ∨ best = some m
  | [], _, _, _, _, _, _, _, _, _ => fun h => Or.inr h
  | m0 :: ms, α, β, best, b, t, ce, cw, cr, m => by
    intro h
    cases mx with
    | true =>
      rw [abLoop_cons_true] at h
      dsimp only at h
      generalize hr : next (setCell b m0 1) α β false t = r at h
      cases hu : XQ.blt α r.score <;> simp only [hu] at h <;> split_ifs at h <;>
        first
          | exact Or.inr h
          | exact Or.inl (by rw [← Option.some.inj h]; exact List.mem_cons_self m0 ms)
          | exact (abLoop_move next true ms _ _ _ _ _ _ _ _ m h).elim
              (fun hmem => Or.inl (List.mem_cons_of_mem _ hmem))
              (fun hbest => Or.inr hbest)
          | exact (abLoop_move next true ms _ _ _ _ _ _ _ _ m h).elim
              (fun hmem => Or.inl (List.mem_cons_of_mem _ hmem))
              (fun hbest => Or.inl
                (by rw [← Option.some.inj hbest]; exact List.mem_cons_self m0 ms))
    | false =>
      rw [abLoop_cons_false] at h
      dsimp only at h
      generalize hr : next (setCell b m0 2) α β true t = r at h
      cases hu : XQ.blt r.score β <;> simp only [hu] at h <;> split_ifs at h <;>
        first
          | exact Or.inr h
          | exact Or.inl (by rw [← Option.some.inj h]; exact List.mem_cons_self m0 ms)
          | exact (abLoop_move next false ms _ _ _ _ _ _ _ _ m h).elim
              (fun hmem => Or.inl (List.mem_cons_of_mem _ hmem))
              (fun hbest => Or.inr hbest)
          | exact (abLoop_move next false ms _ _ _ _ _ _ _ _ m h).elim
              (fun hmem => Or.inl (List.mem_cons_of_mem _ hmem))
              (fun hbest => Or.inl
                (by rw [← Option.some.inj hbest]; exact List.mem_cons_self m0 ms))

theorem minimax_move (d : ℕ) (b : Board n) (α β : XQ) (mx : Bool) (t : Table) (m : Move n)
    (hm : (minimax zt enum d b α β mx t).move = some m) : m ∈ enum b := by
  rw [minimax_eq_mmNode] at hm
  by_cases hhit : ∃ e, tlookup (zhash zt b) t = some e ∧ d ≤ e.depth
  · obtain ⟨e, htl, hd⟩ := hhit
    rw [mmNode_hit zt enum _ d b α β mx t e htl hd] at hm
    exact absurd hm (by simp)
  · rw [mmNode_missBody zt enum _ d b α β mx t (fun e he hd => hhit ⟨e, he, hd⟩)] at hm
    unfold mmBody at hm
    split at hm
    · exact absurd hm (by simp)
    · rcases abLoop_move _ _ _ _ _ _ _ _ _ _ _ m hm with hmem | hbest
      · exact hmem
      · exact absurd hbest (by simp)

theorem tlookup_cons (h k : ℕ) (e : TEntry) (t : Table) :
    tlookup h ((k, e) :: t) = if k = h then some e else tlookup h t := rfl

theorem XQ.ble_antisymm {a b : XQ} (h1 : XQ.ble a b = true) (h2 : XQ.ble b a = true) :
    a = b := by
  cases a <;> cases b <;> simp_all [XQ.ble, XQ.blt]
  exact le_antisymm h1 h2

theorem tlookup_some_mem {h : ℕ} {e : TEntry} :
    ∀ {t : Table}, tlookup h t = some e → (h, e) ∈ t
  | [], hl => by simp [tlookup] at hl
  | (k, e2) :: t, hl => by
    rw [tlookup_cons] at hl
    split_ifs at hl with hk
    · subst hk
      rw [Option.some.injEq] at hl
      subst hl
      exact List.mem_cons_self _ _
    · exact List.mem_cons_of_mem _ (tlookup_some_mem hl)

theorem exLoop_cons_true {n : ℕ} (next : Board n → Bool → XQ × Option (Move n))
    (ms : List (Move n)) (m : Move n) (v : XQ) (best : Option (Move n)) (b : Board n) :
    exLoop next true (m :: ms) v best b =
      (let ev := (next (setCell b m 1) false).1
       if XQ.blt v ev then exLoop next true ms ev (some m) b
       else exLoop next true ms v best b) := rfl

theorem exLoop_cons_false {n : ℕ} (next : Board n → Bool → XQ × Option (Move n))
    (ms : List (Move n)) (m : Move n) (v : XQ) (best : Option (Move n)) (b : Board n) :
    exLoop next false (m :: ms) v best b =
      (let ev := (next (setCell b m 2) true).1
       if XQ.blt ev v then exLoop next false ms ev (some m) b
       else exLoop next false ms v best b) := rfl

theorem exLoop_val_true {n : ℕ} (next : Board n → Bool → XQ × Option (Move n)) :
    ∀ (ms : List (Move n)) (v : XQ) (best : Option (Move n)) (b : Board n),
      (exLoop next true ms v best b).1 =
        ms.foldl (fun a m => maxXQ a ((next (setCell b m 1) false).1)) v
  | [], _, _, _ => rfl
  | m :: ms, v, best, b => by
    rw [exLoop_cons_true]
    dsimp only
    rw [List.foldl_cons]
    cases hv : XQ.blt v ((next (setCell b m 1) false).1) with
    | false =>
      rw [if_neg (by simp [hv]), maxXQ_eq_left hv]
      exact exLoop_val_true next ms _ _ b
    | true =>
      rw [if_pos rfl, maxXQ_eq_right hv]
      exact exLoop_val_true next ms _ _ b

theorem exLoop_val_false {n : ℕ} (next : Board n → Bool → XQ × Option (Move n)) :
    ∀ (ms : List (Move n)) (v : XQ) (best : Option (Move n)) (b : Board n),
      (exLoop next false ms v best b).1 =
        ms.foldl (fun a m => minXQ a ((next (setCell b m 2) true).1)) v
  | [], _, _, _ => rfl
  | m :: ms, v, best, b => by
    rw [exLoop_cons_false]
    dsimp only
    rw [List.foldl_cons]
    cases hv : XQ.blt ((next (setCell b m 2) true).1) v with
    | false =>
      rw [if_neg (by simp [hv]), minXQ_eq_left hv]
      exact exLoop_val_false next ms _ _ b
    | true =>
      rw [if_pos rfl, minXQ_eq_right hv]
      exact exLoop_val_false next ms _ _ b

theorem exLoop_posInf_true {n : ℕ} (next : Board n → Bool → XQ × Option (Move n)) :
    ∀ (ms : List (Move n)) (best : Option (Move n)) (b : Board n),
      exLoop next true ms XQ.posInf best b = (XQ.posInf, best)
  | [], _, _ => rfl
  | m :: ms, best, b => by
    rw [exLoop_cons_true]
    dsimp only
    rw [if_neg (by simp [XQ.posInf_blt])]
    exact exLoop_posInf_true next ms best b

theorem exLoop_negInf_false {n : ℕ} (next : Board n → Bool → XQ × Option (Move n)) :
    ∀ (ms : List (Move n)) (best : Option (Move n)) (b : Board n),
      exLoop next false ms XQ.negInf best b = (XQ.negInf, best)
  | [], _, _ => rfl
  | m :: ms, best, b => by
    rw [exLoop_cons_false]
    dsimp only
    rw [if_neg (by simp [XQ.blt_negInf])]
    exact exLoop_negInf_false next ms best b

theorem tdle_refl (t : Table) :
    ∀ (h : ℕ) (e : TEntry), tlookup h t = some e →
      ∃ e2, tlookup h t = some e2 ∧ (e2 = e ∨ e.depth < e2.depth) :=
  fun _ e he => ⟨e, he, Or.inl rfl⟩

theorem tdle_trans {t1 t2 t3 : Table}
    (h12 : ∀ h e, tlookup h t1 = some e →
      ∃ e2, tlookup h t2 = some e2 ∧ (e2 = e ∨ e.depth < e2.depth))
    (h23 : ∀ h e, tlookup h t2 = some e →
      ∃ e2, tlookup h t3 = some e2 ∧ (e2 = e ∨ e.depth < e2.depth)) :
    ∀ h e, tlookup h t1 = some e →
      ∃ e2, tlookup h t3 = some e2 ∧ (e2 = e ∨ e.depth < e2.depth) := by
  intro h e he
  obtain ⟨e2, he2, hor⟩ := h12 h e he
  obtain ⟨e3, he3, hor2⟩ := h23 h e2 he2
  refine ⟨e3, he3, ?_⟩
  rcases hor with rfl | h1 <;> rcases hor2 with rfl | h2
  · exact Or.inl rfl
  · exact Or.inr h2
  · exact Or.inr h1
  · exact Or.inr (lt_trans h1 h2)

theorem tdle_cons (t : Table) (h0 : ℕ) (e0 : TEntry)
    (hpre : ∀ e, tlookup h0 t = some e → e.depth < e0.depth) :
    ∀ h e, tlookup h t = some e →
      ∃ e2, tlookup h ((h0, e0) :: t) = some e2 ∧ (e2 = e ∨ e.depth < e2.depth) := by
  intro h e he
  by_cases hk : h0 = h
  · subst hk
    exact ⟨e0, by rw [tlookup_cons, if_pos rfl], Or.inr (hpre e he)⟩
  · exact ⟨e, by rw [tlookup_cons, if_neg hk]; exact he, Or.inl rfl⟩

theorem abLoop_tdle (next : Board n → XQ → XQ → Bool → Table → SR n) (mx : Bool)
    (HN : ∀ b α β mx2 t, ∀ h e, tlookup h t = some e →
      ∃ e2, tlookup h (next b α β mx2 t).table = some e2 ∧ (e2 = e ∨ e.depth < e2.depth)) :
    ∀ (ms : List (Move n)) (α β : XQ) (best : Option (Move n)) (b : Board n) (t : Table)
      (ce cw cr : ℕ), ∀ h e, tlookup h t = some e →
      ∃ e2, tlookup h (abLoop next mx ms α β best b t ce cw cr).table = some e2 ∧
        (e2 = e ∨ e.depth < e2.depth)
  | [], _, _, _, _, t, _, _, _ => tdle_refl t
  | m :: ms, α, β, best, b, t, ce, cw, cr => by
    cases mx with
    | true =>
      rw [abLoop_cons_true]
      dsimp only
      have hn := HN (setCell b m 1) α β false t
      generalize hr : next (setCell b m 1) α β false t = r at hn ⊢
      cases hu : XQ.blt α r.score <;> (try simp only [hu]) <;> split_ifs <;>
        first
          | exact hn
          | exact tdle_trans hn (abLoop_tdle next true HN ms _ _ _ _ _ _ _ _)
    | false =>
      rw [abLoop_cons_false]
      dsimp only
      have hn := HN (setCell b m 2) α β true t
      generalize hr : next (setCell b m 2) α β true t = r at hn ⊢
      cases hu : XQ.blt r.score β <;> (try simp only [hu]) <;> split_ifs <;>
        first
          | exact hn
          | exact tdle_trans hn (abLoop_tdle next false HN ms _ _ _ _ _ _ _ _)

theorem minimax_tdle :
    ∀ (d : ℕ) (b : Board n) (α β : XQ) (mx : Bool) (t : Table),
      ∀ h e, tlookup h t = some e →
        ∃ e2, tlookup h (minimax zt enum d b α β mx t).table = some e2 ∧
          (e2 = e ∨ e.depth < e2.depth) := by
  intro d
  induction d with
  | zero =>
    intro b α β mx t
    rw [minimax_eq_mmNode]
    rcases htl : tlookup (zhash zt b) t with - | e
    · rw [mmNode_missBody zt enum _ 0 b α β mx t
        (fun e2 he2 => absurd (htl.symm.trans he2) (by simp))]
      unfold mmBody
      split
      · exact tdle_cons t (zhash zt b) ⟨evaluate_board b, 0⟩
          (fun e2 he2 => absurd (htl.symm.trans he2) (by simp))
      · exact abLoop_tdle (mmNext zt enum 0) mx
          (fun b2 α2 β2 mx2 t2 => tdle_refl t2) (enum b) α β none b t 0 2 0
    · rw [mmNode_hit zt enum _ 0 b α β mx t e htl (Nat.zero_le _)]
      exact tdle_refl t
  | succ d IH =>
    intro b α β mx t
    rw [minimax_eq_mmNode]
    by_cases hhit : ∃ e, tlookup (zhash zt b) t = some e ∧ d + 1 ≤ e.depth
    · obtain ⟨e, htl, hd⟩ := hhit
      rw [mmNode_hit zt enum _ (d + 1) b α β mx t e htl hd]
      exact tdle_refl t
    · have hm : ∀ e, tlookup (zhash zt b) t = some e → ¬(d + 1 ≤ e.depth) :=
        fun e he hd => hhit ⟨e, he, hd⟩
      rw [mmNode_missBody zt enum _ (d + 1) b α β mx t hm]
      unfold mmBody
      split
      · exact tdle_cons t (zhash zt b) ⟨evaluate_board b, d + 1⟩
          (fun e he => show e.depth < d + 1 by have := hm e he; omega)
      · exact abLoop_tdle (mmNext zt enum (d + 1)) mx
          (fun b2 α2 β2 mx2 t2 => IH b2 α2 β2 mx2 t2) (enum b) α β none b t 0 2 0

theorem abLoop_contract_max (he : EnumSpec enum) (d' : ℕ) (β : XQ)
    (IH : ∀ (b : Board n) (α2 β2 : XQ) (mx : Bool) (t : Table),
      XQ.blt α2 β2 = true → ValidTable zt t →
      ValidTable zt (minimax zt enum d' b α2 β2 mx t).table ∧
      (XQ.blt α2 (exhaustiveMinimax enum d' b mx).1 = true →
        XQ.blt (exhaustiveMinimax enum d' b mx).1 β2 = true →
        (minimax zt enum d' b α2 β2 mx t).score = (exhaustiveMinimax enum d' b mx).1) ∧
      (XQ.ble (exhaustiveMinimax enum d' b mx).1 α2 = true →
        XQ.ble (minimax zt enum d' b α2 β2 mx t).score α2 = true) ∧
      (XQ.ble β2 (exhaustiveMinimax enum d' b mx).1 = true →
        XQ.ble β2 (minimax zt enum d' b α2 β2 mx t).score = true)) :
    ∀ (ms : List (Move n)) (b : Board n) (α : XQ) (best : Option (Move n)) (t : Table)
      (ce cw cr : ℕ),
      XQ.blt α β = true → ValidTable zt t → (∀ m ∈ ms, b m.1 m.2 = 0) →
      ValidTable zt (abLoop (minimax zt enum d') true ms α β best b t ce cw cr).table ∧
      XQ.ble α (abLoop (minimax zt enum d') true ms α β best b t ce cw cr).score = true ∧
      (XQ.blt α (ms.foldl (fun a m2 =>
          maxXQ a ((exhaustiveMinimax enum d' (setCell b m2 1) false).1)) α) = true →
        XQ.blt (ms.foldl (fun a m2 =>
          maxXQ a ((exhaustiveMinimax enum d' (setCell b m2 1) false).1)) α) β = true →
        (abLoop (minimax zt enum d') true ms α β best b t ce cw cr).score =
          ms.foldl (fun a m2 =>
            maxXQ a ((exhaustiveMinimax enum d' (setCell b m2 1) false).1)) α) ∧
      (XQ.ble (ms.foldl (fun a m2 =>
          maxXQ a ((exhaustiveMinimax enum d' (setCell b m2 1) false).1)) α) α = true →
        (abLoop (minimax zt enum d') true ms α β best b t ce cw cr).score = α) ∧
      (XQ.ble β (ms.foldl (fun a m2 =>
          maxXQ a ((exhaustiveMinimax enum d' (setCell b m2 1) false).1)) α) = true →
        XQ.ble β (abLoop (minimax zt enum d') true ms α β best b t ce cw cr).score = true) := by
  intro ms
  induction ms with
  | nil =>
    intro b α best t ce cw cr hαβ hval hms
    refine ⟨hval, XQ.ble_refl α, ?_, fun _ => rfl, ?_⟩
    · intro h1 _
      rw [List.foldl_nil, XQ.blt_irrefl] at h1
      simp at h1
    · intro h
      rw [List.foldl_nil] at h
      have hx := XQ.not_blt_of_ble h
      rw [hαβ] at hx
      simp at hx
  | cons m ms IHms =>
    intro b α best t ce cw cr hαβ hval hms
    have hb0 : b m.1 m.2 = 0 := hms m (List.mem_cons_self m ms)
    have hrest : ∀ m2 ∈ ms, b m2.1 m2.2 = 0 :=
      fun m2 h2 => hms m2 (List.mem_cons_of_mem m h2)
    obtain ⟨hvS, hS2, hS3, hS4⟩ := IH (setCell b m 1) α β false t hαβ hval
    rw [abLoop_cons_true]
    dsimp only
    rw [minimax_board zt enum he d' (setCell b m 1) α β false t, setCell_revert b m 1 hb0,
      List.foldl_cons]
    set S := minimax zt enum d' (setCell b m 1) α β false t with hSdef
    set W := (exhaustiveMinimax enum d' (setCell b m 1) false).1 with hWdef
    cases hwa : XQ.blt α W with
    | false =>
      have hra : XQ.ble S.score α = true := hS3 (XQ.ble_of_not_blt hwa)
      have hupd : ¬(XQ.blt α S.score = true) := by simp [XQ.not_blt_of_ble hra]
      rw [if_neg hupd, if_neg hupd]
      have hbr : ¬(XQ.ble β α = true) := by simp [XQ.ble, hαβ]
      rw [if_neg hbr, maxXQ_eq_left hwa]
      exact IHms b α best S.table (ce + S.evalCalls) (cw + S.winCalls) (cr + 1 + S.recCalls)
        hαβ hvS hrest
    | true =>
      cases hwb : XQ.blt W β with
      | true =>
        have hsw : S.score = W := hS2 hwa hwb
        have hupd : XQ.blt α S.score = true := by rw [hsw]; exact hwa
        rw [if_pos hupd, if_pos hupd]
        have hbr : ¬(XQ.ble β S.score = true) := by rw [hsw]; simp [XQ.ble, hwb]
        rw [if_neg hbr, maxXQ_eq_right hwa, ← hsw]
        have hαβ2 : XQ.blt S.score β = true := by rw [hsw]; exact hwb
        obtain ⟨hv2, hle2, h22, h32, h42⟩ := IHms b S.score (some m) S.table
          (ce + S.evalCalls) (cw + S.winCalls) (cr + 1 + S.recCalls) hαβ2 hvS hrest
        have hub : XQ.ble S.score (List.foldl (fun a m2 =>
            maxXQ a ((exhaustiveMinimax enum d' (setCell b m2 1) false).1)) S.score ms) =
            true :=
          foldl_maxXQ_ble (fun m2 => (exhaustiveMinimax enum d' (setCell b m2 1) false).1)
            ms S.score
        refine ⟨hv2, XQ.ble_trans (XQ.ble_of_blt hupd) hle2, ?_, ?_, h42⟩
        · intro h1 h2
          by_cases hvw : XQ.blt S.score (List.foldl (fun a m2 =>
              maxXQ a ((exhaustiveMinimax enum d' (setCell b m2 1) false).1)) S.score ms) =
              true
          · exact h22 hvw h2
          · have hVS : XQ.ble (List.foldl (fun a m2 =>
                maxXQ a ((exhaustiveMinimax enum d' (setCell b m2 1) false).1)) S.score ms)
                S.score = true :=
              XQ.ble_of_not_blt (Bool.eq_false_iff.mpr hvw)
            rw [XQ.ble_antisymm hVS hub]
            exact h32 hVS
        · intro h
          have hx := XQ.blt_of_blt_of_ble (XQ.blt_of_blt_of_ble hupd hub) h
          rw [XQ.blt_irrefl] at hx
          simp at hx
      | false =>
        have hbw : XQ.ble β W = true := XQ.ble_of_not_blt hwb
        have hsb : XQ.ble β S.score = true := hS4 hbw
        have hupd : XQ.blt α S.score = true := XQ.blt_of_blt_of_ble hαβ hsb
        rw [if_pos hupd, if_pos hupd, if_pos hsb]
        have hWV : XQ.ble W (List.foldl (fun a m2 =>
            maxXQ a ((exhaustiveMinimax enum d' (setCell b m2 1) false).1)) (maxXQ α W) ms) =
            true :=
          XQ.ble_trans (ble_maxXQ_right α W)
            (foldl_maxXQ_ble (fun m2 => (exhaustiveMinimax enum d' (setCell b m2 1) false).1)
              ms (maxXQ α W))
        have hβV := XQ.ble_trans hbw hWV
        refine ⟨hvS, XQ.ble_of_blt hupd, ?_, ?_, fun _ => hsb⟩
        · intro h1 h2
          have hx := XQ.blt_of_ble_of_blt hβV h2
          rw [XQ.blt_irrefl] at hx
          simp at hx
        · intro h
          have hαV := XQ.blt_of_blt_of_ble hαβ hβV
          have hx := XQ.blt_of_blt_of_ble hαV h
          rw [XQ.blt_irrefl] at hx
          simp at hx

theorem abLoop_contract_min (he : EnumSpec enum) (d' : ℕ) (α : XQ)
    (IH : ∀ (b : Board n) (α2 β2 : XQ) (mx : Bool) (t : Table),
      XQ.blt α2 β2 = true → ValidTable zt t →
      ValidTable zt (minimax zt enum d' b α2 β2 mx t).table ∧
      (XQ.blt α2 (exhaustiveMinimax enum d' b mx).1 = true →
        XQ.blt (exhaustiveMinimax enum d' b mx).1 β2 = true →
        (minimax zt enum d' b α2 β2 mx t).score = (exhaustiveMinimax enum d' b mx).1) ∧
      (XQ.ble (exhaustiveMinimax enum d' b mx).1 α2 = true →
        XQ.ble (minimax zt enum d' b α2 β2 mx t).score α2 = true) ∧
      (XQ.ble β2 (exhaustiveMinimax enum d' b mx).1 = true →
        XQ.ble β2 (minimax zt enum d' b α2 β2 mx t).score = true)) :
    ∀ (ms : List (Move n)) (b : Board n) (β : XQ) (best : Option (Move n)) (t : Table)
      (ce cw cr : ℕ),
      XQ.blt α β = true → ValidTable zt t → (∀ m ∈ ms, b m.1 m.2 = 0) →
      ValidTable zt (abLoop (minimax zt enum d') false ms α β best b t ce cw cr).table ∧
      XQ.ble (abLoop (minimax zt enum d') false ms α β best b t ce cw cr).score β = true ∧
      (XQ.blt α (ms.foldl (fun a m2 =>
          minXQ a ((exhaustiveMinimax enum d' (setCell b m2 2) true).1)) β) = true →
        XQ.blt (ms.foldl (fun a m2 =>
          minXQ a ((exhaustiveMinimax enum d' (setCell b m2 2) true).1)) β) β = true →
        (abLoop (minimax zt enum d') false ms α β best b t ce cw cr).score =
          ms.foldl (fun a m2 =>
            minXQ a ((exhaustiveMinimax enum d' (setCell b m2 2) true).1)) β) ∧
      (XQ.ble β (ms.foldl (fun a m2 =>
          minXQ a ((exhaustiveMinimax enum d' (setCell b m2 2) true).1)) β) = true →
        (abLoop (minimax zt enum d') false ms α β best b t ce cw cr).score = β) ∧
      (XQ.ble (ms.foldl (fun a m2 =>
          minXQ a ((exhaustiveMinimax enum d' (setCell b m2 2) true).1)) β) α = true →
        XQ.ble (abLoop (minimax zt enum d') false ms α β best b t ce cw cr).score α =
          true) := by
  intro ms
  induction ms with
  | nil =>
    intro b β best t ce cw cr hαβ hval hms
    refine ⟨hval, XQ.ble_refl β, ?_, fun _ => rfl, ?_⟩
    · intro _ h2
      rw [List.foldl_nil, XQ.blt_irrefl] at h2
      simp at h2
    · intro h
      rw [List.foldl_nil] at h
      have hx := XQ.not_blt_of_ble h
      rw [hαβ] at hx
      simp at hx
  | cons m ms IHms =>
    intro b β best t ce cw cr hαβ hval hms
    have hb0 : b m.1 m.2 = 0 := hms m (List.mem_cons_self m ms)
    have hrest : ∀ m2 ∈ ms, b m2.1 m2.2 = 0 :=
      fun m2 h2 => hms m2 (List.mem_cons_of_mem m h2)
    obtain ⟨hvS, hS2, hS3, hS4⟩ := IH (setCell b m 2) α β true t hαβ hval
    rw [abLoop_cons_false]
    dsimp only
    rw [minimax_board zt enum he d' (setCell b m 2) α β true t, setCell_revert b m 2 hb0,
      List.foldl_cons]
    set S := minimax zt enum d' (setCell b m 2) α β true t with hSdef
    set W := (exhaustiveMinimax enum d' (setCell b m 2) true).1 with hWdef
    cases hwb : XQ.blt W β with
    | false =>
      have hsb : XQ.ble β S.score = true := hS4 (XQ.ble_of_not_blt hwb)
      have hupd : ¬(XQ.blt S.score β = true) := by simp [XQ.not_blt_of_ble hsb]
      rw [if_neg hupd, if_neg hupd]
      have hbr : ¬(XQ.ble β α = true) := by simp [XQ.ble, hαβ]
      rw [if_neg hbr, minXQ_eq_left hwb]
      exact IHms b β best S.table (ce + S.evalCalls) (cw + S.winCalls) (cr + 1 + S.recCalls)
        hαβ hvS hrest
    | true =>
      cases hwa : XQ.blt α W with
      | true =>
        have hsw : S.score = W := hS2 hwa hwb
        have hupd : XQ.blt S.score β = true := by rw [hsw]; exact hwb
        rw [if_pos hupd, if_pos hupd]
        have hbr : ¬(XQ.ble S.score α = true) := by rw [hsw]; simp [XQ.ble, hwa]
        rw [if_neg hbr, minXQ_eq_right hwb, ← hsw]
        have hαβ2 : XQ.blt α S.score = true := by rw [hsw]; exact hwa
        obtain ⟨hv2, hle2, h22, h32, h42⟩ := IHms b S.score (some m) S.table
          (ce + S.evalCalls) (cw + S.winCalls) (cr + 1 + S.recCalls) hαβ2 hvS hrest
        have hub : XQ.ble (List.foldl (fun a m2 =>
            minXQ a ((exhaustiveMinimax enum d' (setCell b m2 2) true).1)) S.score ms)
            S.score = true :=
          foldl_minXQ_ble (fun m2 => (exhaustiveMinimax enum d' (setCell b m2 2) true).1)
            ms S.score
        refine ⟨hv2, XQ.ble_trans hle2 (XQ.ble_of_blt hupd), ?_, ?_, h42⟩
        · intro h1 h2
          by_cases hvw : XQ.blt (List.foldl (fun a m2 =>
              minXQ a ((exhaustiveMinimax enum d' (setCell b m2 2) true).1)) S.score ms)
              S.score = true
          · exact h22 h1 hvw
          · have hSV : XQ.ble S.score (List.foldl (fun a m2 =>
                minXQ a ((exhaustiveMinimax enum d' (setCell b m2 2) true).1)) S.score ms) =
                true :=
              XQ.ble_of_not_blt (Bool.eq_false_iff.mpr hvw)
            rw [XQ.ble_antisymm hub hSV]
            exact h32 hSV
        · intro h
          have hx := XQ.blt_of_ble_of_blt (XQ.ble_trans h hub) hupd
          rw [XQ.blt_irrefl] at hx
          simp at hx
      | false =>
        have hsa : XQ.ble S.score α = true := hS3 (XQ.ble_of_not_blt hwa)
        have hupd : XQ.blt S.score β = true := XQ.blt_of_ble_of_blt hsa hαβ
        rw [if_pos hupd, if_pos hupd, if_pos hsa]
        have hVW : XQ.ble (List.foldl (fun a m2 =>
            minXQ a ((exhaustiveMinimax enum d' (setCell b m2 2) true).1)) (minXQ β W) ms)
            W = true :=
          XQ.ble_trans
            (foldl_minXQ_ble (fun m2 => (exhaustiveMinimax enum d' (setCell b m2 2) true).1)
              ms (minXQ β W))
            (ble_minXQ_right β W)
        have hVα := XQ.ble_trans hVW (XQ.ble_of_not_blt hwa)
        refine ⟨hvS, XQ.ble_of_blt hupd, ?_, ?_, fun _ => hsa⟩
        · intro h1 h2
          have hx := XQ.blt_of_blt_of_ble h1 hVα
          rw [XQ.blt_irrefl] at hx
          simp at hx
        · intro h
          have hx := XQ.not_blt_of_ble (XQ.ble_trans h hVα)
          rw [hαβ] at hx
          simp at hx

theorem exhaustiveMinimax_succ (d : ℕ) (b : Board n) (mx : Bool) :
    exhaustiveMinimax enum (d + 1) b mx =
      (if is_winning_move b 1 = true ∨ is_winning_move b 2 = true then
        (XQ.q (evaluate_board b), none)
      else
        exLoop (exhaustiveMinimax enum d) mx (enum b)
          (if mx then XQ.negInf else XQ.posInf) none b) := rfl

theorem valid_hit (Hinj : Function.Injective (zhash zt)) {t : Table}
    (hval : ValidTable zt t) {b : Board n} {e : TEntry}
    (htl : tlookup (zhash zt b) t = some e) :
    e.score = evaluate_board b ∧
      (e.depth = 0 ∨ is_winning_move b 1 = true ∨ is_winning_move b 2 = true) := by
  obtain ⟨b2, hh, hs, hd⟩ := hval _ (tlookup_some_mem htl)
  have hb : b2 = b := Hinj hh
  subst hb
  exact ⟨hs, hd⟩

theorem mm_contract (Hinj : Function.Injective (zhash zt)) (he : EnumSpec enum) :
    ∀ (d : ℕ) (b : Board n) (α β : XQ) (mx : Bool) (t : Table),
      XQ.blt α β = true → ValidTable zt t →
      ValidTable zt (minimax zt enum d b α β mx t).table ∧
      (XQ.blt α (exhaustiveMinimax enum d b mx).1 = true →
        XQ.blt (exhaustiveMinimax enum d b mx).1 β = true →
        (minimax zt enum d b α β mx t).score = (exhaustiveMinimax enum d b mx).1) ∧
      (XQ.ble (exhaustiveMinimax enum d b mx).1 α = true →
        XQ.ble (minimax zt enum d b α β mx t).score α = true) ∧
      (XQ.ble β (exhaustiveMinimax enum d b mx).1 = true →
        XQ.ble β (minimax zt enum d b α β mx t).score = true) := by
  intro d
  induction d with
  | zero =>
    intro b α β mx t hαβ hval
    have hv0 : (exhaustiveMinimax enum 0 b mx).1 = XQ.q (evaluate_board b) := rfl
    rcases htl : tlookup (zhash zt b) t with - | e
    · have hmiss : ∀ e2, tlookup (zhash zt b) t = some e2 → e2.depth < 0 := by
        intro e2 he2
        rw [htl] at he2
        simp at he2
      rw [minimax_miss zt enum 0 b α β mx t hmiss,
        mmBody_terminal enum _ 0 b α β mx t _ (Or.inl rfl)]
      refine ⟨?_, fun _ _ => (hv0.symm : _), fun h => ?_, fun h => ?_⟩
      · intro p hp
        rcases List.mem_cons.mp hp with rfl | hp2
        · exact ⟨b, rfl, rfl, Or.inl rfl⟩
        · exact hval p hp2
      · rw [hv0] at h
        exact h
      · rw [hv0] at h
        exact h
    · rw [minimax_hit zt enum 0 b α β mx t e htl (Nat.zero_le _)]
      obtain ⟨hs, -⟩ := valid_hit zt Hinj hval htl
      refine ⟨hval, fun _ _ => ?_, fun h => ?_, fun h => ?_⟩
      · show XQ.q e.score = _
        rw [hs, hv0]
      · rw [hv0] at h
        show XQ.ble (XQ.q e.score) α = true
        rw [hs]
        exact h
      · rw [hv0] at h
        show XQ.ble β (XQ.q e.score) = true
        rw [hs]
        exact h
  | succ d IH =>
    intro b α β mx t hαβ hval
    by_cases hhit : ∃ e, tlookup (zhash zt b) t = some e ∧ d + 1 ≤ e.depth
    · obtain ⟨e, htl, hdep⟩ := hhit
      rw [minimax_hit zt enum (d + 1) b α β mx t e htl hdep]
      obtain ⟨hs, hterm⟩ := valid_hit zt Hinj hval htl
      have hwin : is_winning_move b 1 = true ∨ is_winning_move b 2 = true := by
        rcases hterm with h0 | hw
        · omega
        · exact hw
      have hv : (exhaustiveMinimax enum (d + 1) b mx).1 = XQ.q (evaluate_board b) := by
        rw [exhaustiveMinimax_succ enum d b mx, if_pos hwin]
      refine ⟨hval, fun _ _ => ?_, fun h => ?_, fun h => ?_⟩
      · show XQ.q e.score = _
        rw [hs, hv]
      · rw [hv] at h
        show XQ.ble (XQ.q e.score) α = true
        rw [hs]
        exact h
      · rw [hv] at h
        show XQ.ble β (XQ.q e.score) = true
        rw [hs]
        exact h
    · have hm : ∀ e, tlookup (zhash zt b) t = some e → e.depth < d + 1 := by
        intro e he2
        by_contra hlt
        exact hhit ⟨e, he2, by omega⟩
      rw [minimax_miss zt enum (d + 1) b α β mx t hm]
      by_cases hterm : d + 1 = 0 ∨ is_winning_move b 1 = true ∨ is_winning_move b 2 = true
      · have hwin : is_winning_move b 1 = true ∨ is_winning_move b 2 = true := by
          rcases hterm with h0 | hw
          · omega
          · exact hw
        rw [mmBody_terminal enum _ (d + 1) b α β mx t _ hterm]
        have hv : (exhaustiveMinimax enum (d + 1) b mx).1 = XQ.q (evaluate_board b) := by
          rw [exhaustiveMinimax_succ enum d b mx, if_pos hwin]
        refine ⟨?_, fun _ _ => ?_, fun h => ?_, fun h => ?_⟩
        · intro p hp
          rcases List.mem_cons.mp hp with rfl | hp2
          · exact ⟨b, rfl, rfl, Or.inr hwin⟩
          · exact hval p hp2
        · show XQ.q (evaluate_board b) = _
          rw [hv]
        · rw [hv] at h
          exact h
        · rw [hv] at h
          exact h
      · rw [mmBody_loop enum _ (d + 1) b α β mx t _ hterm,
          show mmNext zt enum (d + 1) = minimax zt enum d from rfl]
        have hnw : ¬(is_winning_move b 1 = true ∨ is_winning_move b 2 = true) :=
          fun hw => hterm (Or.inr hw)
        have hms : ∀ m ∈ enum b, b m.1 m.2 = 0 :=
          fun m hm2 => available_moves_empty b m (((he b).2 m).mp hm2)
        cases mx with
        | true =>
          have hex : exhaustiveMinimax enum (d + 1) b true =
              exLoop (exhaustiveMinimax enum d) true (enum b) XQ.negInf none b := by
            rw [exhaustiveMinimax_succ enum d b true, if_neg hnw]
            rfl
          have hv1 : (exhaustiveMinimax enum (d + 1) b true).1 =
              List.foldl (fun a m2 =>
                maxXQ a ((exhaustiveMinimax enum d (setCell b m2 1) false).1))
                XQ.negInf (enum b) := by
            rw [hex]
            exact exLoop_val_true (exhaustiveMinimax enum d) (enum b) XQ.negInf none b
          have hV : List.foldl (fun a m2 =>
              maxXQ a ((exhaustiveMinimax enum d (setCell b m2 1) false).1)) α (enum b) =
              maxXQ α (List.foldl (fun a m2 =>
                maxXQ a ((exhaustiveMinimax enum d (setCell b m2 1) false).1))
                XQ.negInf (enum b)) := by
            have h0 := foldl_maxXQ_start
              (fun m2 => (exhaustiveMinimax enum d (setCell b m2 1) false).1)
              (enum b) α XQ.negInf
            rw [maxXQ_negInf_right] at h0
            exact h0
          obtain ⟨hL1, hL2, hL3, hL4, hL5⟩ :=
            abLoop_contract_max zt enum he d β IH (enum b) b α none t 0 2 0 hαβ hval hms
          refine ⟨hL1, ?_, ?_, ?_⟩
          · rw [hv1]
            intro h1 h2
            have hVv : List.foldl (fun a m2 =>
                maxXQ a ((exhaustiveMinimax enum d (setCell b m2 1) false).1)) α (enum b) =
                List.foldl (fun a m2 =>
                  maxXQ a ((exhaustiveMinimax enum d (setCell b m2 1) false).1))
                  XQ.negInf (enum b) := by
              rw [hV, maxXQ_eq_right h1]
            refine (hL3 ?_ ?_).trans hVv
            · rw [hVv]
              exact h1
            · rw [hVv]
              exact h2
          · rw [hv1]
            intro h
            have hVα : List.foldl (fun a m2 =>
                maxXQ a ((exhaustiveMinimax enum d (setCell b m2 1) false).1)) α (enum b) =
                α := by
              rw [hV, maxXQ_eq_left (XQ.not_blt_of_ble h)]
            rw [hL4 (by rw [hVα]; exact XQ.ble_refl α)]
            exact XQ.ble_refl α
          · rw [hv1]
            intro h
            refine hL5 ?_
            rw [hV]
            exact XQ.ble_trans h (ble_maxXQ_right α _)
        | false =>
          have hex : exhaustiveMinimax enum (d + 1) b false =
              exLoop (exhaustiveMinimax enum d) false (enum b) XQ.posInf none b := by
            rw [exhaustiveMinimax_succ enum d b false, if_neg hnw]
            rfl
          have hv1 : (exhaustiveMinimax enum (d + 1) b false).1 =
              List.foldl (fun a m2 =>
                minXQ a ((exhaustiveMinimax enum d (setCell b m2 2) true).1))
                XQ.posInf (enum b) := by
            rw [hex]
            exact exLoop_val_false (exhaustiveMinimax enum d) (enum b) XQ.posInf none b
          have hV : List.foldl (fun a m2 =>
              minXQ a ((exhaustiveMinimax enum d (setCell b m2 2) true).1)) β (enum b) =
              minXQ β (List.foldl (fun a m2 =>
                minXQ a ((exhaustiveMinimax enum d (setCell b m2 2) true).1))
                XQ.posInf (enum b)) := by
            have h0 := foldl_minXQ_start
              (fun m2 => (exhaustiveMinimax enum d (setCell b m2 2) true).1)
              (enum b) β XQ.posInf
            rw [minXQ_posInf_right] at h0
            exact h0
          obtain ⟨hL1, hL2, hL3, hL4, hL5⟩ :=
            abLoop_contract_min zt enum he d α IH (enum b) b β none t 0 2 0 hαβ hval hms
          refine ⟨hL1, ?_, ?_, ?_⟩
          · rw [hv1]
            intro h1 h2
            have hVv : List.foldl (fun a m2 =>
                minXQ a ((exhaustiveMinimax enum d (setCell b m2 2) true).1)) β (enum b) =
                List.foldl (fun a m2 =>
                  minXQ a ((exhaustiveMinimax enum d (setCell b m2 2) true).1))
                  XQ.posInf (enum b) := by
              rw [hV, minXQ_eq_right h2]
            refine (hL3 ?_ ?_).trans hVv
            · rw [hVv]
              exact h1
            · rw [hVv]
              exact h2
          · rw [hv1]
            intro h
            refine hL5 ?_
            rw [hV]
            exact XQ.ble_trans (ble_minXQ_right β _) h
          · rw [hv1]
            intro h
            have hVβ : List.foldl (fun a m2 =>
                minXQ a ((exhaustiveMinimax enum d (setCell b m2 2) true).1)) β (enum b) =
                β := by
              rw [hV, minXQ_eq_left (XQ.not_blt_of_ble h)]
            rw [hL4 (by rw [hVβ]; exact XQ.ble_refl β)]
            exact XQ.ble_refl β

theorem abLoop_root_max (Hinj : Function.Injective (zhash zt)) (he : EnumSpec enum)
    (d' : ℕ) :
    ∀ (ms : List (Move n)) (b : Board n) (α : XQ) (best : Option (Move n)) (t : Table)
      (ce cw cr : ℕ),
      α ≠ XQ.posInf → ValidTable zt t → (∀ m ∈ ms, b m.1 m.2 = 0) →
      (abLoop (minimax zt enum d') true ms α XQ.posInf best b t ce cw cr).score =
        (exLoop (exhaustiveMinimax enum d') true ms α best b).1 ∧
      (abLoop (minimax zt enum d') true ms α XQ.posInf best b t ce cw cr).move =
        (exLoop (exhaustiveMinimax enum d') true ms α best b).2 := by
  intro ms
  induction ms with
  | nil =>
    intro b α best t ce cw cr hα hval hms
    exact ⟨rfl, rfl⟩
  | cons m ms IHms =>
    intro b α best t ce cw cr hα hval hms
    have hb0 : b m.1 m.2 = 0 := hms m (List.mem_cons_self m ms)
    have hrest : ∀ m2 ∈ ms, b m2.1 m2.2 = 0 :=
      fun m2 h2 => hms m2 (List.mem_cons_of_mem m h2)
    have hαp : XQ.blt α XQ.posInf = true := XQ.blt_posInf hα
    obtain ⟨hvS, hS2, hS3, hS4⟩ :=
      mm_contract zt enum Hinj he d' (setCell b m 1) α XQ.posInf false t hαp hval
    rw [abLoop_cons_true, exLoop_cons_true]
    dsimp only
    rw [minimax_board zt enum he d' (setCell b m 1) α XQ.posInf false t,
      setCell_revert b m 1 hb0]
    set S := minimax zt enum d' (setCell b m 1) α XQ.posInf false t with hSdef
    set W := (exhaustiveMinimax enum d' (setCell b m 1) false).1 with hWdef
    cases hwa : XQ.blt α W with
    | false =>
      have hra : XQ.ble S.score α = true := hS3 (XQ.ble_of_not_blt hwa)
      have hupd : ¬(XQ.blt α S.score = true) := by simp [XQ.not_blt_of_ble hra]
      have hbr : ¬(XQ.ble XQ.posInf α = true) := fun h => hα (XQ.eq_posInf_of_ble h)
      rw [if_neg hupd, if_neg hupd, if_neg hbr, if_neg (by simp [hwa])]
      exact IHms b α best S.table (ce + S.evalCalls) (cw + S.winCalls)
        (cr + 1 + S.recCalls) hα hvS hrest
    | true =>
      rw [if_pos rfl]
      by_cases hWp : W = XQ.posInf
      · have hSp : S.score = XQ.posInf :=
          XQ.eq_posInf_of_ble (hS4 (by rw [hWp]; exact XQ.ble_refl _))
        have hupd : XQ.blt α S.score = true := by
          rw [hSp]
          exact XQ.blt_posInf hα
        rw [if_pos hupd, if_pos hupd]
        have hbk : XQ.ble XQ.posInf S.score = true := by
          rw [hSp]
          exact XQ.ble_refl _
        rw [if_pos hbk, hWp,
          exLoop_posInf_true (exhaustiveMinimax enum d') ms (some m) b]
        exact ⟨by rw [hSp], rfl⟩
      · have hwp : XQ.blt W XQ.posInf = true := XQ.blt_posInf hWp
        have hsw : S.score = W := hS2 hwa hwp
        have hupd : XQ.blt α S.score = true := by
          rw [hsw]
          exact hwa
        rw [if_pos hupd, if_pos hupd]
        have hbr : ¬(XQ.ble XQ.posInf S.score = true) := fun h =>
          hWp (by rw [← hsw]; exact XQ.eq_posInf_of_ble h)
        rw [if_neg hbr, ← hsw]
        exact IHms b S.score (some m) S.table (ce + S.evalCalls) (cw + S.winCalls)
          (cr + 1 + S.recCalls) (fun h => hWp (by rw [← hsw]; exact h)) hvS hrest

theorem mm_root (Hinj : Function.Injective (zhash zt)) (he : EnumSpec enum)
    (d : ℕ) (b : Board n) :
    (minimax zt enum d b XQ.negInf XQ.posInf true []).score =
      (exhaustiveMinimax enum d b true).1 ∧
    (minimax zt enum d b XQ.negInf XQ.posInf true []).move =
      (exhaustiveMinimax enum d b true).2 := by
  have hm : ∀ e, tlookup (zhash zt b) ([] : Table) = some e → e.depth < d := by
    intro e he2
    simp [tlookup] at he2
  cases d with
  | zero =>
    rw [minimax_miss zt enum 0 b _ _ true [] hm,
      mmBody_terminal enum _ 0 b _ _ true [] _ (Or.inl rfl)]
    exact ⟨rfl, rfl⟩
  | succ d =>
    rw [minimax_miss zt enum (d + 1) b _ _ true [] hm]
    by_cases hterm : d + 1 = 0 ∨ is_winning_move b 1 = true ∨ is_winning_move b 2 = true
    · rw [mmBody_terminal enum _ (d + 1) b _ _ true [] _ hterm]
      have hwin : is_winning_move b 1 = true ∨ is_winning_move b 2 = true := by
        rcases hterm with h0 | hw
        · omega
        · exact hw
      rw [exhaustiveMinimax_succ enum d b true, if_pos hwin]
      exact ⟨rfl, rfl⟩
    · rw [mmBody_loop enum _ (d + 1) b _ _ true [] _ hterm,
        show mmNext zt enum (d + 1) = minimax zt enum d from rfl]
      have hnw : ¬(is_winning_move b 1 = true ∨ is_winning_move b 2 = true) :=
        fun hw => hterm (Or.inr hw)
      have hex : exhaustiveMinimax enum (d + 1) b true =
          exLoop (exhaustiveMinimax enum d) true (enum b) XQ.negInf none b := by
        rw [exhaustiveMinimax_succ enum d b true, if_neg hnw]
        rfl
      rw [hex]
      have hms : ∀ m ∈ enum b, b m.1 m.2 = 0 :=
        fun m hm2 => available_moves_empty b m (((he b).2 m).mp hm2)
      exact abLoop_root_max zt enum Hinj he d (enum b) b XQ.negInf none [] 0 2 0
        (by decide) (fun p hp => absurd hp (List.not_mem_nil p)) hms

end SearchLemmas

/-- C2: after any call to `minimax`, every cell of the board it was given is
unchanged — the move applied before each recursive call is always reverted,
including when the candidate loop exits early through alpha-beta pruning.
The hypothesis states that the candidate enumeration lists the Python set
built by `available_moves` (in any order). -/
theorem claim_C2 {n : ℕ} (zt : Fin n → Fin n → Fin 3 → ℕ) (enum : Board n → List (Move n))
    (he : EnumSpec enum) (d : ℕ) (b : Board n) (α β : XQ) (mx : Bool) (t : Table)
    (x y : Fin n) : (minimax zt enum d b α β mx t).board x y = b x y := by
  rw [minimax_board zt enum he]

/-- Witness for C2 at a concrete 3x3 position searched at depth 2. -/
theorem claim_C2_witness :
    (minimax (ztPow 3) rmEnum 2 bOne3 XQ.negInf XQ.posInf true []).board 0 0 = bOne3 0 0 :=
  claim_C2 (ztPow 3) rmEnum enumSpec_rmEnum 2 bOne3 XQ.negInf XQ.posInf true [] 0 0

/-- C5: whenever `minimax` returns a move (not the `none` sentinel), that
move's cell is empty, both on the board as passed in and on the board as the
caller sees it after the call (which is the same board, by the revert
discipline): candidates are filtered to empty cells by `available_moves`. -/
theorem claim_C5 {n : ℕ} (zt : Fin n → Fin n → Fin 3 → ℕ) (enum : Board n → List (Move n))
    (he : EnumSpec enum) (d : ℕ) (b : Board n) (α β : XQ) (mx : Bool) (t : Table)
    (m : Move n) (hm : (minimax zt enum d b α β mx t).move = some m) :
    b m.1 m.2 = 0 ∧ (minimax zt enum d b α β mx t).board m.1 m.2 = 0 := by
  have hmem := minimax_move zt enum d b α β mx t m hm
  have h0 := available_moves_empty b m (((he b).2 m).mp hmem)
  exact ⟨h0, by rw [minimax_board zt enum he]; exact h0⟩

set_option maxHeartbeats 1600000 in
/-- Witness for C5: a depth-1 search from a 2x2 position returns the move
(0, 1), whose cell is empty. -/
theorem claim_C5_witness :
    bOne2 0 1 = 0 ∧
      (minimax (ztPow 2) rmEnum 1 bOne2 XQ.negInf XQ.posInf true []).board 0 1 = 0 :=
  claim_C5 (ztPow 2) rmEnum enumSpec_rmEnum 1 bOne2 XQ.negInf XQ.posInf true []
    (0, 1) (by with_unfolding_all decide)

/-- C4: a transposition hit with stored depth at least the requested depth
returns the stored score immediately with no move, leaving board and table
untouched and making zero evaluator calls, zero win-detector calls, and zero
recursive search calls; an entry of smaller stored depth — and likewise no
entry at all — sends the call through the very same post-lookup body, i.e. is
treated as a miss. -/
theorem claim_C4 {n : ℕ} (zt : Fin n → Fin n → Fin 3 → ℕ) (enum : Board n → List (Move n))
    (d : ℕ) (b : Board n) (α β : XQ) (mx : Bool) (t : Table) :
    (∀ e, tlookup (zhash zt b) t = some e → d ≤ e.depth →
      minimax zt enum d b α β mx t = ⟨XQ.q e.score, none, b, t, 0, 0, 0⟩) ∧
    (∀ e, tlookup (zhash zt b) t = some e → e.depth < d →
      minimax zt enum d b α β mx t =
        mmBody enum (mmNext zt enum d) d b α β mx t (zhash zt b)) ∧
    (tlookup (zhash zt b) t = none →
      minimax zt enum d b α β mx t =
        mmBody enum (mmNext zt enum d) d b α β mx t (zhash zt b)) := by
  refine ⟨fun e htl hd => minimax_hit zt enum d b α β mx t e htl hd, ?_, ?_⟩
  · intro e htl hd
    refine minimax_miss zt enum d b α β mx t (fun e2 htl2 => ?_)
    have he2 : e = e2 := Option.some.inj (htl.symm.trans htl2)
    rw [← he2]
    exact hd
  · intro htl
    exact minimax_miss zt enum d b α β mx t
      (fun e2 htl2 => absurd (htl.symm.trans htl2) (by simp))

/-- Witness for C4 at a concrete 2x2 position with a stored entry of depth 3:
a request at depth 2 hits and returns the stored score 5; a request at depth
4 is treated as a miss. -/
theorem claim_C4_witness :
    minimax (ztPow 2) rmEnum 2 bOne2 XQ.negInf XQ.posInf true tOne2 =
      ⟨XQ.q 5, none, bOne2, tOne2, 0, 0, 0⟩ ∧
    minimax (ztPow 2) rmEnum 4 bOne2 XQ.negInf XQ.posInf true tOne2 =
      mmBody rmEnum (mmNext (ztPow 2) rmEnum 4) 4 bOne2 XQ.negInf XQ.posInf true tOne2
        (zhash (ztPow 2) bOne2) :=
  ⟨(claim_C4 (ztPow 2) rmEnum 2 bOne2 XQ.negInf XQ.posInf true tOne2).1 ⟨5, 3⟩
      (by decide) (by decide),
   (claim_C4 (ztPow 2) rmEnum 4 bOne2 XQ.negInf XQ.posInf true tOne2).2.1 ⟨5, 3⟩
      (by decide) (by decide)⟩

/-- C3 (amended): when there is no usable cache entry, the node is not
terminal (nonzero depth, no five-in-a-row for either player) and no candidate
moves exist, `minimax` returns the defined "no move" sentinel `none` rather
than raising — but pairs it with the alpha (maximizing) or beta (minimizing)
bound it was called with, the loop never having run, not with the node's
static Evaluator score; the table is unchanged and the evaluator is not
invoked. -/
theorem claim_C3 {n : ℕ} (zt : Fin n → Fin n → Fin 3 → ℕ) (enum : Board n → List (Move n))
    (d : ℕ) (b : Board n) (α β : XQ) (mx : Bool) (t : Table)
    (hmiss : ∀ e, tlookup (zhash zt b) t = some e → e.depth < d)
    (hd : d ≠ 0) (hw1 : is_winning_move b 1 = false) (hw2 : is_winning_move b 2 = false)
    (henum : enum b = []) :
    minimax zt enum d b α β mx t = ⟨if mx then α else β, none, b, t, 0, 2, 0⟩ := by
  rw [minimax_miss zt enum d b α β mx t hmiss,
    mmBody_loop enum _ d b α β mx t _ (by simp [hd, hw1, hw2]), henum]
  rfl

/-- Witness for C3 (amended) at the empty 5x5 board, depth 1, fresh table. -/
theorem claim_C3_witness :
    minimax (ztPow 5) rmEnum 1 (bEmpty 5) XQ.negInf XQ.posInf true [] =
      ⟨XQ.negInf, none, bEmpty 5, [], 0, 2, 0⟩ :=
  claim_C3 (ztPow 5) rmEnum 1 (bEmpty 5) XQ.negInf XQ.posInf true []
    (fun e he => absurd he (by simp [tlookup])) (by decide) (by decide) (by decide)
    (by decide)

/-- C3 (counterexample): at the empty 5x5 board with depth 1, a fresh table
and the full window, all hypotheses of C3 hold — no cache entry, the node is
not terminal, there are no candidates — and the call does return the `none`
sentinel without raising; but the returned score is the passed-in alpha
(negative infinity), which is not the node's static Evaluator score 0. -/
theorem claim_C3_counterexample :
    tlookup (zhash (ztPow 5) (bEmpty 5)) [] = none ∧
    (1 : ℕ) ≠ 0 ∧
    is_winning_move (bEmpty 5) 1 = false ∧ is_winning_move (bEmpty 5) 2 = false ∧
    rmEnum (bEmpty 5) = [] ∧
    (minimax (ztPow 5) rmEnum 1 (bEmpty 5) XQ.negInf XQ.posInf true []).move = none ∧
    (minimax (ztPow 5) rmEnum 1 (bEmpty 5) XQ.negInf XQ.posInf true []).score =
      XQ.negInf ∧
    (minimax (ztPow 5) rmEnum 1 (bEmpty 5) XQ.negInf XQ.posInf true []).score ≠
      XQ.q (evaluate_board (bEmpty 5)) :=
  ⟨rfl, by decide, by decide, by decide, by decide, by decide, by decide, by decide⟩

/-- C10: the depth stored under any fingerprint key never decreases across a
`minimax` call: an existing entry is either still there unchanged, or has
been overwritten by an entry of strictly greater depth (the code only stores
after the hit test `stored depth >= requested depth` has failed). -/
theorem claim_C10 {n : ℕ} (zt : Fin n → Fin n → Fin 3 → ℕ) (enum : Board n → List (Move n))
    (d : ℕ) (b : Board n) (α β : XQ) (mx : Bool) (t : Table) (h : ℕ) (e : TEntry)
    (he : tlookup h t = some e) :
    ∃ e2, tlookup h (minimax zt enum d b α β mx t).table = some e2 ∧
      (e2 = e ∨ e.depth < e2.depth) :=
  minimax_tdle zt enum d b α β mx t h e he

/-- Witness for C10: the stored entry of `tOne2` survives a depth-4 search
with its depth not decreased. -/
theorem claim_C10_witness :
    ∃ e2, tlookup (zhash (ztPow 2) bOne2)
        (minimax (ztPow 2) rmEnum 4 bOne2 XQ.negInf XQ.posInf true tOne2).table = some e2 ∧
      (e2 = (⟨5, 3⟩ : TEntry) ∨ (⟨5, 3⟩ : TEntry).depth < e2.depth) :=
  claim_C10 (ztPow 2) rmEnum 4 bOne2 XQ.negInf XQ.posInf true tOne2
    (zhash (ztPow 2) bOne2) ⟨5, 3⟩ (by decide)

/-- C1: called with the full window (alpha = -infinity, beta = +infinity),
maximizing player and a fresh transposition table, `minimax` returns the same
score and the same move as the exhaustive, non-pruning, non-caching minimax
over the same position with the same candidate enumeration — at every depth
and on every board whose Zobrist fingerprint is collision-free, which covers
in particular the small boards at shallow depth named by the claim. -/
theorem claim_C1 {n : ℕ} (zt : Fin n → Fin n → Fin 3 → ℕ) (enum : Board n → List (Move n))
    (Hinj : Function.Injective (zhash zt)) (he : EnumSpec enum) (d : ℕ) (b : Board n) :
    (minimax zt enum d b XQ.negInf XQ.posInf true []).score =
      (exhaustiveMinimax enum d b true).1 ∧
    (minimax zt enum d b XQ.negInf XQ.posInf true []).move =
      (exhaustiveMinimax enum d b true).2 :=
  mm_root zt enum Hinj he d b

set_option maxRecDepth 8000 in
set_option maxHeartbeats 1600000 in
/-- Witness for C1: a 2x2 board with one stone, searched at depth 2 with the
collision-free power-of-two Zobrist table and the row-major enumeration. -/
theorem claim_C1_witness :
    (minimax (ztPow 2) rmEnum 2 bOne2 XQ.negInf XQ.posInf true []).score =
      (exhaustiveMinimax rmEnum 2 bOne2 true).1 ∧
    (minimax (ztPow 2) rmEnum 2 bOne2 XQ.negInf XQ.posInf true []).move =
      (exhaustiveMinimax rmEnum 2 bOne2 true).2 :=
  claim_C1 (ztPow 2) rmEnum (by decide) enumSpec_rmEnum 2 bOne2

end Gomoku
